import Mathlib

/-!
Verification of the VaultX secure-journal core against its specification.

The development shallowly embeds the security-relevant modules of the
repository:

* `src/blockchain.js` — hash-chained tamper log: canonical block strings,
  block hashing, `appendEvent`, `ensureMigrated`, `verifyChain`;
* `src/crypto.js` — master-key wrapping and per-entry authenticated
  encryption;
* `src/storage.js` — the entry store (`appendEntry`, `updateEntry`,
  `clearAllEntries`) and tamper-log persistence;
* `app/index.tsx` — the vault flows `handleCreateVault`, `handleUnlock`,
  the entry view path, and `performPanicWipe`.

External cryptographic primitives (SHA-256 via expo-crypto, the CryptoJS
AES-CBC / PBKDF2 / HMAC backends) are not part of this repository; they
enter the embedding as explicit function parameters, with their algebraic
contracts (determinism, inverse round trips, injectivity where a theorem
needs collision freeness) taken as hypotheses that every witness theorem
discharges on a concrete executable instance.

JavaScript truthiness (`x || y` falls through on `undefined`, `null` and
`""`) and the `undefined` / `null` distinction on `prevHash` are modelled
explicitly: an optional string field is `Option String`, and `prevHash`
is `Option (Option String)` (`none` = the key is absent / `undefined`,
`some none` = explicit `null`, `some (some h)` = a string).
-/

namespace VaultX

/-- JavaScript `a || dflt` on an optional string field: `undefined`, and the
empty string, fall through to the default. -/
def jsOrS (a : Option String) (dflt : String) : String :=
  match a with
  | some s => if s = "" then dflt else s
  | none => dflt

/-- JavaScript `a || ""` on an optional string field. -/
def orEmpty (a : Option String) : String :=
  a.getD ""

/-- JavaScript `a || null` on a string-or-null variable: the empty string
collapses to `null`. -/
def jsOrNull (a : Option String) : Option String :=
  match a with
  | some s => if s = "" then none else some s
  | none => none

/-- JavaScript truthiness of an optional string: present and nonempty. -/
def truthyStr (a : Option String) : Bool :=
  match a with
  | some s => !(s == "")
  | none => false

/-- Accumulate the leading decimal digits of a character list. -/
def digitsVal : List Char → Nat → Nat
  | [], acc => acc
  | c :: rest, acc =>
    if c.isDigit then digitsVal rest (acc * 10 + (c.toNat - 48)) else acc

/-- JavaScript `parseInt(s, 10)` on the strings this code stores: the value
of the leading run of decimal digits, `none` (`NaN`) when the string does
not start with a digit. -/
def jsParseInt (s : String) : Option Nat :=
  match s.data with
  | [] => none
  | c :: _ => if c.isDigit then some (digitsVal s.data 0) else none

/-- Serialization of the `seq` field inside the canonical block string,
`String(b.seq || "")`: an absent `seq` and the (falsy) number `0` both
serialize as the empty string. -/
def seqString : Option Int → String
  | none => ""
  | some n => if n = 0 then "" else toString n

/-- Serialization of the `prevHash` field inside the canonical block string,
`b.prevHash || ""`: `undefined`, `null` and `""` all serialize empty. -/
def prevHashString : Option (Option String) → String
  | none => ""
  | some none => ""
  | some (some s) => s

/-- Field set of a stored tamper-log block (the object shape of
`src/blockchain.js`).  Legacy records may carry `timestamp` / `type` /
`message` instead of `ts` / `event` / `detail`; migrated and appended
blocks carry `seq`, `ts`, `nonce`, `prevHash` and `blockHash`. -/
structure BlockFields where
  seq : Option Int := none
  ts : Option String := none
  timestamp : Option String := none
  nonce : Option String := none
  event : Option String := none
  type_ : Option String := none
  detail : Option String := none
  message : Option String := none
  id : Option String := none
  file : Option String := none
  hash : Option String := none
  custody : Option String := none
  signature : Option String := none
  prevHash : Option (Option String) := none
  blockHash : Option String := none
  deriving Repr, DecidableEq

/-- A stored tamper-log block; `raw` models the `_raw` backup field the
migration attaches (the original record, fields only). -/
structure Block extends BlockFields where
  raw : Option BlockFields := none
  deriving Repr, DecidableEq

instance : Inhabited BlockFields := ⟨{}⟩

instance : Inhabited Block := ⟨{}⟩

/-- Event payload accepted by `appendEvent` (`ev` in `src/blockchain.js`). -/
structure EventPayload where
  event : Option String := none
  type_ : Option String := none
  detail : Option String := none
  message : Option String := none
  id : Option String := none
  file : Option String := none
  hash : Option String := none
  custody : Option String := none
  signature : Option String := none
  deriving Repr, DecidableEq

/-- Canonical string of a block, `canonicalStringForBlock` in
`src/blockchain.js`: the nine fields `seq, ts, event, detail, id, file,
hash, signature, prevHash` in that fixed order, joined by `"|"`, absent
fields as the empty string.  `nonce`, `custody` and `blockHash` are not
part of the canonical string. -/
def canonicalStringForBlock (b : BlockFields) : String :=
  seqString b.seq ++ "|" ++ orEmpty b.ts ++ "|" ++ orEmpty b.event ++ "|" ++
    orEmpty b.detail ++ "|" ++ orEmpty b.id ++ "|" ++ orEmpty b.file ++ "|" ++
    orEmpty b.hash ++ "|" ++ orEmpty b.signature ++ "|" ++ prevHashString b.prevHash

/-- Hash of a block: SHA-256 (the parameter `sha`) of its canonical string
(`computeBlockHash` in `src/blockchain.js`). -/
def computeBlockHash (sha : String → String) (b : BlockFields) : String :=
  sha (canonicalStringForBlock b)

/-- A block the migration treats as legacy: `blockHash` missing (or falsy),
or `prevHash` literally `undefined` (`typeof item.prevHash === "undefined"`).
The JS predicate also fires on a `null` array slot, which has no
counterpart in a `List Block`. -/
def isLegacyBlock (b : Block) : Bool :=
  !(truthyStr b.blockHash) || b.prevHash.isNone

/-- Rebuild loop of `ensureMigrated`: walks the chronological (oldest-first)
list, re-sequencing from 1, normalizing the timestamp through the Date
parser (`parseISO`, `none` = unparsable), generating a nonce when absent
(`nonces i` is the random draw of iteration `i`), linking `prevHash` to the
previous rebuilt block's hash and recomputing `blockHash` from the
canonical string.  The original record is preserved under `raw`. -/
def migrateGo (sha : String → String) (parseISO : String → Option String)
    (now : String) (nonces : Nat → String) :
    Nat → Option String → List Block → List Block
  | _, _, [] => []
  | i, prevAcc, item :: rest =>
    let tsIn := jsOrS item.ts (jsOrS item.timestamp "")
    let tsISO :=
      match parseISO tsIn with
      | some iso => iso
      | none => jsOrS item.ts (jsOrS item.timestamp now)
    let core : BlockFields :=
      { seq := some ((i : Int) + 1)
        ts := some tsISO
        nonce := some (jsOrS item.nonce (nonces i))
        event := some (jsOrS item.event (jsOrS item.type_ "event"))
        detail := some (jsOrS item.detail (jsOrS item.message ""))
        id := item.id
        file := item.file
        hash := item.hash
        custody := item.custody
        signature := item.signature
        prevHash := some (jsOrNull prevAcc) }
    let h := computeBlockHash sha core
    let blk : Block :=
      { toBlockFields := { core with blockHash := some h }
        raw := some (match item.raw with
          | some r => r
          | none => item.toBlockFields) }
    blk :: migrateGo sha parseISO now nonces (i + 1) (some h) rest

/-- Lazy migration `ensureMigrated` of `src/blockchain.js`: a no-op on an
empty store and on a store with no legacy record; otherwise the stored
array (newest-first) is reversed to chronological order, rebuilt, and
written back newest-first. -/
def ensureMigrated (sha : String → String) (parseISO : String → Option String)
    (now : String) (nonces : Nat → String) (stored : List Block) : List Block :=
  if stored.isEmpty then stored
  else if !(stored.any isLegacyBlock) then stored
  else (migrateGo sha parseISO now nonces 0 none stored.reverse).reverse

/-- Core of `appendEvent` (after the `ensureMigrated` call): scans the
stored array for the highest `seq` and the block that holds it, builds the
new block with `seq = lastSeq + 1`, `prevHash` = that block's stored
`blockHash` (or `null`), hashes its canonical string, and unshifts it onto
the stored array.  Returns the new block and the new store. -/
def seqFoldStep (acc : Int) (it : Block) : Int :=
  match it.seq with
  | some n => if acc < n then n else acc
  | none => acc

/-- The `lastSeq` scan of `appendEvent`: highest numeric `seq` over the
stored array, `0` on an empty or seq-less store. -/
def lastSeqOf (existing : List Block) : Int :=
  existing.foldl seqFoldStep 0

/-- One step of the `maxSeqItem` reduce of `appendEvent`
(`cur.seq > (acc.seq || 0) ? cur : acc`, with a `null` accumulator taken
over by the first element). -/
def maxSeqStep (acc : Option Block) (cur : Block) : Option Block :=
  match acc with
  | none => some cur
  | some a =>
    match cur.seq with
    | some n => if a.seq.getD 0 < n then some cur else some a
    | none => some a

/-- The `maxSeqItem` reduce of `appendEvent`: the stored block holding the
highest `seq`. -/
def maxSeqItemOf (existing : List Block) : Option Block :=
  existing.foldl maxSeqStep none

/-- The `lastBlockHash` selection of `appendEvent`: the truthy `blockHash`
of the max-`seq` block, `null` otherwise. -/
def lastBlockHashOf (existing : List Block) : Option String :=
  match maxSeqItemOf existing with
  | some a =>
    match a.blockHash with
    | some h => if h = "" then none else some h
    | none => none
  | none => none

def appendEventCore (sha : String → String) (existing : List Block)
    (ev : EventPayload) (ts nonce : String) : Block × List Block :=
  let lastSeq : Int := lastSeqOf existing
  let lastBlockHash : Option String := lastBlockHashOf existing
  let core : BlockFields :=
    { seq := some (lastSeq + 1)
      ts := some ts
      nonce := some nonce
      event := some (jsOrS ev.event (jsOrS ev.type_ "event"))
      detail := some (jsOrS ev.detail (jsOrS ev.message ""))
      id := ev.id
      file := ev.file
      hash := ev.hash
      custody := ev.custody
      signature := ev.signature
      prevHash := some (jsOrNull lastBlockHash) }
  let h := computeBlockHash sha core
  let blk : Block := { toBlockFields := { core with blockHash := some h }, raw := none }
  (blk, blk :: existing)

/-- One `appendEvent` call of `src/blockchain.js`: the lazy migration runs
first, then the core append.  `ts` and `nonce` are the wall-clock and
random draws of the call; `migNow` / `migNonces` are the draws the
migration would consume. -/
structure StepInput where
  ev : EventPayload
  ts : String
  nonce : String
  migNow : String
  migNonces : Nat → String

/-- Full `appendEvent`: migration followed by the core append; returns the
new stored array (newest-first). -/
def appendEventFull (sha : String → String) (parseISO : String → Option String)
    (stored : List Block) (s : StepInput) : List Block :=
  (appendEventCore sha (ensureMigrated sha parseISO s.migNow s.migNonces stored)
    s.ev s.ts s.nonce).2

/-- A sequence of `appendEvent` calls starting from a given stored array. -/
def appendRun (sha : String → String) (parseISO : String → Option String)
    (steps : List StepInput) (stored : List Block) : List Block :=
  steps.foldl (fun st s => appendEventFull sha parseISO st s) stored

/-- Per-block record of `verifyChain`'s `details` list. -/
structure VerifyDetail where
  seq : Option Int
  computed : String
  stored : Option String
  prevStored : Option String
  prevMatches : Bool
  blockMatches : Bool
  deriving Repr, DecidableEq

instance : Inhabited VerifyDetail :=
  ⟨⟨none, "", none, none, false, false⟩⟩

/-- Aggregate result of `verifyChain`. -/
structure VerifyResult where
  ok : Bool
  breaks : Nat
  head : Option String
  details : List VerifyDetail
  deriving Repr, DecidableEq

/-- The verification walk of `verifyChain`: chronological order, starting
with `prev = null`; for each block the canonical hash is recomputed, the
stored `prevHash` is compared with `prev` (both through `|| ""`), the
stored `blockHash` with the recomputed hash, and `prev` then advances to
the *stored* `blockHash` (falling back to the recomputed hash only when
the stored one is falsy).  Returns the break count, the final `prev`
(the head), and the details list. -/
def verifyLoop (sha : String → String) (prev : Option String) :
    List Block → Nat × Option String × List VerifyDetail
  | [] => (0, prev, [])
  | r :: rest =>
    let computed := computeBlockHash sha r.toBlockFields
    let prevMatches := prevHashString r.prevHash == orEmpty prev
    let blockMatches := orEmpty r.blockHash == computed
    let nextPrev : Option String :=
      match r.blockHash with
      | some s => if s = "" then (if computed = "" then none else some computed) else some s
      | none => if computed = "" then none else some computed
    let d : VerifyDetail :=
      { seq := r.seq
        computed := computed
        stored := jsOrNull r.blockHash
        prevStored := jsOrNull (match r.prevHash with
          | some p => p
          | none => none)
        prevMatches := prevMatches
        blockMatches := blockMatches }
    let rec_ := verifyLoop sha nextPrev rest
    ((if prevMatches && blockMatches then 0 else 1) + rec_.1, rec_.2.1, d :: rec_.2.2)

/-- Verification of a stored (newest-first) array after migration:
`verifyChain` minus its own `ensureMigrated` call. -/
def verifyChainStored (sha : String → String) (stored : List Block) : VerifyResult :=
  if stored.isEmpty then { ok := true, breaks := 0, head := none, details := [] }
  else
    let r := verifyLoop sha none stored.reverse
    { ok := r.1 == 0, breaks := r.1, head := r.2.1, details := r.2.2 }

/-- Full `verifyChain` of `src/blockchain.js`: lazy migration, then the
verification walk over the chronological chain. -/
def verifyChainFull (sha : String → String) (parseISO : String → Option String)
    (now : String) (nonces : Nat → String) (stored : List Block) : VerifyResult :=
  verifyChainStored sha (ensureMigrated sha parseISO now nonces stored)

/-- Head fingerprint (`getHeadFingerprint`): stored `blockHash` of the
chronologically last block, `null` on an empty chain. -/
def getHeadFingerprint (sha : String → String) (parseISO : String → Option String)
    (now : String) (nonces : Nat → String) (stored : List Block) : Option String :=
  match (ensureMigrated sha parseISO now nonces stored).reverse.getLast? with
  | some last => jsOrNull last.blockHash
  | none => none

/-! ## Key manager, entry store and panic wipe -/

/-- The JSON value persisted under `vault_wrapped_key`:
`{ wrapped: base64, wrapIvHex: hex }`. -/
structure WrappedObj where
  wrapped : String
  wrapIvHex : String
  deriving Repr, DecidableEq

/-- A stored journal entry (`Entry` in `app/index.tsx`). -/
structure EntryRec where
  id : String
  iv : String
  ciphertext : String
  hmac : String
  timestamp : String
  deriving Repr, DecidableEq

instance : Inhabited EntryRec :=
  ⟨⟨"", "", "", "", ""⟩⟩

/-- The persistent state the vault flows touch: the four SecureStore
key-material records, the `vault_entries` array (`none` = key absent, as
after `clearAllEntries`), and the `vault_tamper_log` array (newest-first).
Raw tamper-log appends from `app/index.tsx` are plain `{ts, event, detail,
id}` objects, i.e. legacy-shaped blocks. -/
structure AppState where
  wrappedKey : Option WrappedObj := none
  salt : Option String := none
  iter : Option String := none
  created : Option String := none
  entries : Option (List EntryRec) := none
  tamperLog : List Block := []
  deriving Repr, DecidableEq

/-- A raw tamper-log item as `app/index.tsx` appends it:
`{ ts, event, detail?, id? }`, no chaining fields. -/
def mkLogItem (ts event : String) (detail id : Option String) : Block :=
  { ts := some ts, event := some event, detail := detail, id := id }

/-- `loadEntries` of `src/storage.js`: the stored array, `[]` when the key
is absent. -/
def loadEntriesOf (st : AppState) : List EntryRec :=
  st.entries.getD []

/-- `appendEntry` of `src/storage.js`: `unshift`, i.e. prepend the new
entry to the loaded array and save it back. -/
def appendEntry (entries : List EntryRec) (e : EntryRec) : List EntryRec :=
  e :: entries

/-- `appendEntry` as a state transition: load the stored array, unshift,
save back. -/
def appendEntryState (st : AppState) (e : EntryRec) : AppState :=
  { st with entries := some (appendEntry (loadEntriesOf st) e) }

/-- A partial entry update (`updatedEntry` in `src/storage.js`): the JS
object-spread merge `{...entries[index], ...updatedEntry}` with optional
fields. -/
structure EntryPatch where
  id : Option String := none
  iv : Option String := none
  ciphertext : Option String := none
  hmac : Option String := none
  timestamp : Option String := none
  deriving Repr, DecidableEq

/-- The object-spread merge of a patch over an entry. -/
def applyPatch (e : EntryRec) (p : EntryPatch) : EntryRec :=
  { id := p.id.getD e.id
    iv := p.iv.getD e.iv
    ciphertext := p.ciphertext.getD e.ciphertext
    hmac := p.hmac.getD e.hmac
    timestamp := p.timestamp.getD e.timestamp }

/-- `updateEntry` of `src/storage.js`: find the entry with the given id and
overwrite it in place with the merged record; a no-op when the id is not
present. -/
def updateEntry (entries : List EntryRec) (id : String) (p : EntryPatch) :
    List EntryRec :=
  match entries.findIdx? (fun e => e.id == id) with
  | some i => entries.set i (applyPatch entries[i]! p)
  | none => entries

/-- `handleCreateVault` of `app/index.tsx`: rejects a mismatching or
empty confirmation and a passphrase shorter than 12 characters; otherwise
derives the wrap key with PBKDF2 (100000 iterations) over the fresh salt,
wraps the fresh master key under it with the fresh wrap IV, stores the
wrapped record, salt, iteration count and creation time, resets the entry
store and tamper log, and appends a `vault_created` log item.
`wrapEnc masterHex keyHex ivHex` is the CryptoJS AES-256-CBC encryption
of `wrapMasterKey`; `pbkdf2 pass saltHex iter` the derived key.  The
random draws (`masterHex`, `saltHex`, `wrapIvHex`) and the clock (`now`)
are explicit inputs. -/
def handleCreateVault (wrapEnc : String → String → String → String)
    (pbkdf2 : String → String → Nat → String)
    (passA passB masterHex saltHex wrapIvHex now : String) :
    Option AppState :=
  if passA = "" ∨ passA ≠ passB then none
  else if passA.length < 12 then none
  else
    let wrapKey := pbkdf2 passA saltHex 100000
    let wrapped := wrapEnc masterHex wrapKey wrapIvHex
    some { wrappedKey := some ⟨wrapped, wrapIvHex⟩
           salt := some saltHex
           iter := some (toString (100000 : Nat))
           created := some now
           entries := some []
           tamperLog := [mkLogItem now "vault_created" none none] }

/-- Failure surface of the unlock flow. -/
inductive UnlockErr where
  | noVault
  | wrongPassphrase
  deriving Repr, DecidableEq

/-- The unlock decision of `handleUnlock` in `app/index.tsx` (biometric
gate disabled, as in the default `vault_meta`): with any of the three
key-material records missing the flow stops with the "vault not
initialized" outcome; otherwise the wrap key is re-derived from the stored
salt and iteration count and `unwrapMasterKey` is attempted.  `wrapDec`
models the CryptoJS AES-CBC decryption (`none` = the library threw); a
thrown error, an empty result, or a result that is not 64 hex characters
all collapse into the single `wrongPassphrase` outcome (the flow logs the
uniform detail `"wrong_passphrase"` and alerts "Incorrect passphrase"
in every such case). -/
def unlockResult (wrapDec : String → String → String → Option String)
    (pbkdf2 : String → String → Nat → String)
    (st : AppState) (pass : String) : Except UnlockErr String :=
  match st.wrappedKey, st.salt, st.iter with
  | some wobj, some saltHex, some iterStr =>
    let iterN := (jsParseInt iterStr).getD 0
    let wrapKey := pbkdf2 pass saltHex iterN
    match wrapDec wobj.wrapped wrapKey wobj.wrapIvHex with
    | none => .error .wrongPassphrase
    | some m => if m = "" ∨ m.length ≠ 64 then .error .wrongPassphrase else .ok m
  | _, _, _ => .error .noVault

/-- `encryptEntryWithMaster` of `src/crypto.js`: AES-CBC encryption of the
plaintext under the master key with a fresh IV, and an HMAC-SHA256 over
`iv|ciphertext|timestamp` keyed with SHA-256 of the master key bytes.
`entryEnc plaintext keyHex ivHex` is the CryptoJS encryption,
`sha256s` the SHA-256 of the hex-parsed master key, `hmacF msg key` the
HMAC; the IV draw (`ivHex`) and the clock (`ts`) are explicit inputs.
Returns `(ivHex, ciphertextB64, hmac, ts)`. -/
def encryptEntryWithMaster (entryEnc : String → String → String → String)
    (sha256s : String → String) (hmacF : String → String → String)
    (masterKeyHex plaintext ivHex ts : String) :
    String × String × String × String :=
  let ciphertextB64 := entryEnc plaintext masterKeyHex ivHex
  let hmacKey := sha256s masterKeyHex
  let hmac := hmacF (ivHex ++ "|" ++ ciphertextB64 ++ "|" ++ ts) hmacKey
  (ivHex, ciphertextB64, hmac, ts)

/-- The entry record `handleSaveNewEntry` stores from the quadruple
returned by `encryptEntryWithMaster`. -/
def mkEntry (r : String × String × String × String) (id : String) : EntryRec :=
  { id := id, iv := r.1, ciphertext := r.2.1, hmac := r.2.2.1, timestamp := r.2.2.2 }

/-- `verifyEntryHMAC` of `src/crypto.js`: recompute the HMAC over
`iv|ciphertext|timestamp` keyed with SHA-256 of the master key and compare
with the stored value. -/
def verifyEntryHMAC (sha256s : String → String) (hmacF : String → String → String)
    (masterKeyHex : String) (e : EntryRec) : Bool :=
  hmacF (e.iv ++ "|" ++ e.ciphertext ++ "|" ++ e.timestamp) (sha256s masterKeyHex)
    == e.hmac

/-- Failure surface of the entry view path. -/
inductive EntryErr where
  | integrityFailure
  | decryptionFailure
  deriving Repr, DecidableEq

/-- The decryption path of `handleViewEntry` in `app/index.tsx`: the HMAC
is verified first; on mismatch the flow stops with the integrity failure
(logging `entry_integrity_fail`) and never calls
`decryptEntryWithMaster`; on match the AES-CBC decryption runs
(`entryDec ciphertext keyHex ivHex`, `none` = the library threw /
malformed UTF-8). -/
def decryptEntryFlow (entryDec : String → String → String → Option String)
    (sha256s : String → String) (hmacF : String → String → String)
    (masterKeyHex : String) (e : EntryRec) : Except EntryErr String :=
  if verifyEntryHMAC sha256s hmacF masterKeyHex e then
    match entryDec e.ciphertext masterKeyHex e.iv with
    | some plain => .ok plain
    | none => .error .decryptionFailure
  else .error .integrityFailure

/-- `performPanicWipe` of `app/index.tsx`: three junk overwrite passes of
the loaded entries (each pass rewrites every entry with random hex in
`ciphertext`, `hmac` and `iv`), then `clearAllEntries` (the
`vault_entries` key is removed).  The post-check re-reads the wrapped key
and the entries: since the flow never deletes any SecureStore record, a
present wrapped key makes the check fail and a `panic_wipe_failed` item is
logged; a `panic_wiped` item is logged afterwards in every case.
`junk p i` is the random hex drawn on pass `p` for entry `i`, `now` the
clock. -/
def performPanicWipe (junk : Nat → Nat → String) (now : String)
    (st : AppState) : AppState :=
  let current := loadEntriesOf st
  let junkPass : Nat → List EntryRec := fun p =>
    (List.range current.length).map (fun i =>
      let e := current[i]!
      let junkHex := junk p i
      { e with ciphertext := junkHex, hmac := junkHex
               iv := junkHex.take 32, timestamp := now })
  let st1 := { st with entries := some (junkPass 0) }
  let st2 := { st1 with entries := some (junkPass 1) }
  let st3 := { st2 with entries := some (junkPass 2) }
  let st4 := { st3 with entries := none }
  let checkWrapped : Option WrappedObj := st4.wrappedKey
  let checkEntries : List EntryRec := loadEntriesOf st4
  let st5 :=
    if checkWrapped ≠ none ∨ checkEntries.length > 0 then
      { st4 with tamperLog :=
          mkLogItem now "panic_wipe_failed" (some "Data still exists after wipe") none
            :: st4.tamperLog }
    else st4
  { st5 with tamperLog := mkLogItem now "panic_wiped" none none :: st5.tamperLog }

/-! ## General helper lemmas -/

/-- Cancellation of a shared prefix and suffix around a string: the middle
part of a pipe-joined canonical string is recoverable. -/
theorem string_middle_cancel {a m b m' : String}
    (h : a ++ m ++ b = a ++ m' ++ b) : m = m' := by
  have hd : a.data ++ (m.data ++ b.data) = a.data ++ (m'.data ++ b.data) := by
    have hq := congrArg String.data h
    rw [String.data_append, String.data_append, String.data_append,
      String.data_append, List.append_assoc, List.append_assoc] at hq
    exact hq
  exact String.ext (List.append_cancel_right (List.append_cancel_left hd))

/-- A concrete executable stand-in for the SHA-256 backend used by the
witness theorems: prefix-tagging, which is injective and never empty. -/
def hashW (s : String) : String := "h" ++ s

theorem hashW_ne_empty (s : String) : hashW s ≠ "" := by
  intro h
  have := congrArg String.data h
  simp [hashW] at this

theorem hashW_inj : Function.Injective hashW := by
  intro a b h
  have hd := congrArg String.data h
  simp [hashW] at hd
  exact String.ext hd

/-- A concrete executable stand-in for the HMAC backend used by the witness
theorems: tagged concatenation, injective in the message for every key. -/
def hmacW (msg key : String) : String := key ++ "#" ++ msg

theorem hmacW_inj (key : String) : Function.Injective (fun m => hmacW m key) := by
  intro a b h
  simp only [hmacW] at h
  have hd := congrArg String.data h
  simp [String.data_append] at hd
  exact String.ext hd

/-! ## C3 — canonical block hashing -/

/-- C3: every block appended by `appendEvent` stores as `blockHash` the
SHA-256 digest of its own canonical pipe-joined string (the nine fields
`seq, ts, event, detail, id, file, hash, signature, prevHash` in fixed
order, absent fields empty), and the canonical hash is a pure function of
those nine fields only: two blocks agreeing on them — whatever their
`nonce`, `custody`, `timestamp`/`type`/`message` legacy fields, stored
`blockHash` or `_raw` backup — have identical recomputed block hashes. -/
theorem blockHash_pure_function_of_nine_fields (sha : String → String) :
    (∀ existing ev ts nonce,
      ((appendEventCore sha existing ev ts nonce).1).blockHash =
        some (computeBlockHash sha
          ((appendEventCore sha existing ev ts nonce).1).toBlockFields)) ∧
    (∀ b1 b2 : Block,
      b1.seq = b2.seq → b1.ts = b2.ts → b1.event = b2.event →
      b1.detail = b2.detail → b1.id = b2.id → b1.file = b2.file →
      b1.hash = b2.hash → b1.signature = b2.signature →
      b1.prevHash = b2.prevHash →
      computeBlockHash sha b1.toBlockFields = computeBlockHash sha b2.toBlockFields) := by
  constructor
  · intro existing ev ts nonce
    rfl
  · intro b1 b2 h1 h2 h3 h4 h5 h6 h7 h8 h9
    simp only [computeBlockHash, canonicalStringForBlock, h1, h2, h3, h4, h5,
      h6, h7, h8, h9]

/-- Witness for C3: two concrete blocks differing in `nonce`, `custody`
and `_raw` but agreeing on the nine canonical fields hash identically. -/
theorem blockHash_pure_function_of_nine_fields_witness :
    computeBlockHash hashW
      ({ seq := some 1, ts := some "t", event := some "e", nonce := some "n1",
         custody := some "c1" } : Block).toBlockFields =
    computeBlockHash hashW
      ({ seq := some 1, ts := some "t", event := some "e", nonce := some "n2",
         custody := some "c2", raw := some {} } : Block).toBlockFields :=
  (blockHash_pure_function_of_nine_fields hashW).2 _ _ rfl rfl rfl rfl rfl rfl
    rfl rfl rfl

/-! ## C9 — the entry store is not strictly append-only -/

/-- A concrete stored entry used to exhibit the `updateEntry` mutation. -/
def entryA : EntryRec := ⟨"a", "iv0", "ct0", "mac0", "t0"⟩

/-- Counterexample to C9 as stated: `updateEntry`, a public (exported)
operation of `src/storage.js` distinct from the panic-wipe full-store
overwrite, changes an individual stored entry in place. -/
theorem updateEntry_mutates_stored_entry :
    updateEntry [entryA] "a" { ciphertext := some "JUNK" } ≠ [entryA] := by
  decide

/-- C9 as amended: `appendEntry` prepends the new entry (newest-first)
while leaving every previously stored entry unchanged at its shifted
position; append-only holds for the append path, although the module
additionally exports the entry-mutating `updateEntry`. -/
theorem appendEntry_prepends_preserving_existing (st : AppState) (e : EntryRec) :
    loadEntriesOf (appendEntryState st e) = e :: loadEntriesOf st ∧
    (loadEntriesOf (appendEntryState st e)).length = (loadEntriesOf st).length + 1 ∧
    ∀ i, i < (loadEntriesOf st).length →
      (loadEntriesOf (appendEntryState st e))[i + 1]! = (loadEntriesOf st)[i]! := by
  refine ⟨rfl, rfl, fun i hi => ?_⟩
  simp [appendEntryState, loadEntriesOf, appendEntry, List.getElem!_cons_succ]

/-- Witness for the amended C9 at a concrete store. -/
theorem appendEntry_prepends_preserving_existing_witness :
    loadEntriesOf (appendEntryState { entries := some [entryA] }
        ⟨"b", "iv1", "ct1", "mac1", "t1"⟩) =
      ⟨"b", "iv1", "ct1", "mac1", "t1"⟩ :: loadEntriesOf { entries := some [entryA] } ∧
    (loadEntriesOf (appendEntryState { entries := some [entryA] }
        ⟨"b", "iv1", "ct1", "mac1", "t1"⟩)).length =
      (loadEntriesOf ({ entries := some [entryA] } : AppState)).length + 1 ∧
    ∀ i, i < (loadEntriesOf ({ entries := some [entryA] } : AppState)).length →
      (loadEntriesOf (appendEntryState { entries := some [entryA] }
        ⟨"b", "iv1", "ct1", "mac1", "t1"⟩))[i + 1]! =
      (loadEntriesOf ({ entries := some [entryA] } : AppState))[i]! :=
  appendEntry_prepends_preserving_existing _ _

/-! ## C1 — create / unlock / encrypt / decrypt round trip -/

/-- C1: for every passphrase of length at least 12 and every plaintext,
creating a vault and unlocking it with the same passphrase returns
exactly the generated master key, and the entry view path decrypts an
entry encrypted under that key back to the original plaintext.  The
CryptoJS backends enter as parameters with their inverse contracts
(`wrapDec` undoes `wrapEnc`, `entryDec` undoes `entryEnc`); the generated
master key is 32 random bytes, i.e. 64 hex characters. -/
theorem create_unlock_encrypt_decrypt_roundtrip
    (wrapEnc : String → String → String → String)
    (wrapDec : String → String → String → Option String)
    (pbkdf2 : String → String → Nat → String)
    (entryEnc : String → String → String → String)
    (entryDec : String → String → String → Option String)
    (sha256s : String → String) (hmacF : String → String → String)
    (hwrap : ∀ m k iv, wrapDec (wrapEnc m k iv) k iv = some m)
    (hentry : ∀ p k iv, entryDec (entryEnc p k iv) k iv = some p)
    (P M masterHex saltHex wrapIvHex now ivE tsE eid : String)
    (hP : 12 ≤ P.length) (hmaster : masterHex.length = 64) :
    ∃ st, handleCreateVault wrapEnc pbkdf2 P P masterHex saltHex wrapIvHex now = some st ∧
      unlockResult wrapDec pbkdf2 st P = .ok masterHex ∧
      decryptEntryFlow entryDec sha256s hmacF masterHex
        (mkEntry (encryptEntryWithMaster entryEnc sha256s hmacF masterHex M ivE tsE) eid)
        = .ok M := by
  have hPne : P ≠ "" := by
    intro h
    rw [h] at hP
    simp at hP
  have h12 : ¬(P.length < 12) := Nat.not_lt.mpr hP
  have hIter : (jsParseInt (toString (100000 : Nat))).getD 0 = 100000 := by decide
  have hmne : masterHex ≠ "" := by
    intro h
    rw [h] at hmaster
    simp at hmaster
  have hcv : handleCreateVault wrapEnc pbkdf2 P P masterHex saltHex wrapIvHex now =
      some { wrappedKey := some ⟨wrapEnc masterHex (pbkdf2 P saltHex 100000) wrapIvHex,
               wrapIvHex⟩
             salt := some saltHex
             iter := some (toString (100000 : Nat))
             created := some now
             entries := some []
             tamperLog := [mkLogItem now "vault_created" none none] } := by
    simp only [handleCreateVault]
    rw [if_neg (by simp [hPne]), if_neg h12]
  refine ⟨_, hcv, ?_, ?_⟩
  · simp only [unlockResult, hIter, hwrap]
    rw [if_neg (by simp [hmne, hmaster])]
  · simp only [decryptEntryFlow, verifyEntryHMAC, mkEntry, encryptEntryWithMaster]
    rw [if_pos (by simp)]
    simp [hentry]

/-- Witness for C1: identity-style backends satisfying the inverse
contracts, a 21-character passphrase and a concrete 64-hex-char master
key. -/
theorem create_unlock_encrypt_decrypt_roundtrip_witness :
    ∃ st, handleCreateVault (fun m _ _ => m) (fun _ _ _ => "K")
        "correct-horse-battery" "correct-horse-battery"
        (String.mk (List.replicate 64 'f')) "salt0" "iv0" "now0" = some st ∧
      unlockResult (fun c _ _ => some c) (fun _ _ _ => "K") st "correct-horse-battery"
        = .ok (String.mk (List.replicate 64 'f')) ∧
      decryptEntryFlow (fun c _ _ => some c) (fun k => k) (fun m k => m ++ k)
        (String.mk (List.replicate 64 'f'))
        (mkEntry (encryptEntryWithMaster (fun p _ _ => p) (fun k => k)
          (fun m k => m ++ k) (String.mk (List.replicate 64 'f'))
          "hello vault" "iv1" "t1") "e1") = .ok "hello vault" :=
  create_unlock_encrypt_decrypt_roundtrip _ _ _ _ _ _ _
    (fun _ _ _ => rfl) (fun _ _ _ => rfl) _ _ _ _ _ _ _ _ _
    (by decide) rfl

/-! ## C6 — uniform wrong-passphrase failure -/

/-- C6: with the wrapped-key record, salt and iteration count all present,
the unlock flow fails with the single `wrongPassphrase` outcome whenever
the AES-CBC unwrap throws (`wrapDec` returns `none`) or its result is not
exactly 64 hex characters (32 bytes); and for two passphrases `P1 ≠ P2`,
unlocking a vault created with `P1` using `P2` fails with
`wrongPassphrase` under the cryptographic premise that decrypting the
wrapped blob with the `P2`-derived key does not yield a 64-character
result. -/
theorem unlock_fails_uniformly_with_wrongPassphrase
    (wrapDec : String → String → String → Option String)
    (pbkdf2 : String → String → Nat → String) :
    (∀ (st : AppState) (pass : String) (w : WrappedObj) (s i : String),
      st.wrappedKey = some w → st.salt = some s → st.iter = some i →
      (wrapDec w.wrapped (pbkdf2 pass s ((jsParseInt i).getD 0)) w.wrapIvHex = none ∨
        ∃ m, wrapDec w.wrapped (pbkdf2 pass s ((jsParseInt i).getD 0)) w.wrapIvHex = some m ∧
          (m = "" ∨ m.length ≠ 64)) →
      unlockResult wrapDec pbkdf2 st pass = .error .wrongPassphrase) ∧
    (∀ (wrapEnc : String → String → String → String)
        (P1 P2 masterHex saltHex wrapIvHex now : String) (st : AppState),
      P1 ≠ P2 →
      handleCreateVault wrapEnc pbkdf2 P1 P1 masterHex saltHex wrapIvHex now = some st →
      (∀ m, wrapDec (wrapEnc masterHex (pbkdf2 P1 saltHex 100000) wrapIvHex)
          (pbkdf2 P2 saltHex 100000) wrapIvHex = some m → m = "" ∨ m.length ≠ 64) →
      unlockResult wrapDec pbkdf2 st P2 = .error .wrongPassphrase) := by
  have hIter : (jsParseInt (toString (100000 : Nat))).getD 0 = 100000 := by decide
  constructor
  · intro st pass w s i hw hs hi hfail
    simp only [unlockResult, hw, hs, hi]
    rcases hfail with hnone | ⟨m, hm, hbad⟩
    · simp [hnone]
    · simp only [hm]
      rw [if_pos hbad]
  · intro wrapEnc P1 P2 masterHex saltHex wrapIvHex now st _ hcv hfail
    have hstructure :
        st = { wrappedKey := some ⟨wrapEnc masterHex (pbkdf2 P1 saltHex 100000) wrapIvHex,
                 wrapIvHex⟩
               salt := some saltHex
               iter := some (toString (100000 : Nat))
               created := some now
               entries := some []
               tamperLog := [mkLogItem now "vault_created" none none] } := by
      by_cases h1 : P1 = "" ∨ P1 ≠ P1
      · simp only [handleCreateVault, if_pos h1] at hcv
        exact absurd hcv (by simp)
      · by_cases h2 : P1.length < 12
        · simp only [handleCreateVault, if_neg h1, if_pos h2] at hcv
          exact absurd hcv (by simp)
        · simp only [handleCreateVault, if_neg h1, if_neg h2, Option.some.injEq] at hcv
          exact hcv.symm
    subst hstructure
    simp only [unlockResult, hIter]
    cases hd : wrapDec (wrapEnc masterHex (pbkdf2 P1 saltHex 100000) wrapIvHex)
        (pbkdf2 P2 saltHex 100000) wrapIvHex with
    | none => rfl
    | some m =>
      show (if m = "" ∨ m.length ≠ 64 then Except.error UnlockErr.wrongPassphrase
        else Except.ok m) = Except.error UnlockErr.wrongPassphrase
      rw [if_pos (hfail m hd)]

/-- Witness for C6 with a backend that always throws on unwrap. -/
theorem unlock_fails_uniformly_with_wrongPassphrase_witness :
    unlockResult (fun _ _ _ => none) (fun _ _ _ => "K")
      { wrappedKey := some ⟨"w", "iv"⟩, salt := some "s", iter := some "1" } "pass"
      = .error .wrongPassphrase ∧
    unlockResult (fun _ _ _ => none) (fun _ _ _ => "K")
      { wrappedKey := some ⟨(fun m _ _ => m) "master" "K" "iv0", "iv0"⟩
        salt := some "salt0"
        iter := some (toString (100000 : Nat))
        created := some "now0"
        entries := some []
        tamperLog := [mkLogItem "now0" "vault_created" none none] } "other-passphrase-2"
      = .error .wrongPassphrase :=
  ⟨(unlock_fails_uniformly_with_wrongPassphrase _ _).1 _ "pass" _ _ _ rfl rfl rfl
      (Or.inl rfl),
    (unlock_fails_uniformly_with_wrongPassphrase _ _).2 (fun m _ _ => m)
      "one-passphrase-12" "other-passphrase-2" "master" "salt0" "iv0" "now0" _
      (by decide)
      (by simp only [handleCreateVault]; rw [if_neg (by simp), if_neg (by decide)])
      (fun m hm => by simp at hm)⟩

/-! ## C8 — entry tamper detection via HMAC -/

/-- C8: the entry view path recomputes the HMAC over
`iv|ciphertext|timestamp` keyed with SHA-256 of the master key before any
decryption; for an entry produced by `encryptEntryWithMaster`, any change
to the stored ciphertext (under an injective HMAC) and any change to the
stored HMAC makes the path fail with `integrityFailure`, the AES
decryption never being consulted. -/
theorem entry_tamper_fails_integrity
    (entryDec : String → String → String → Option String)
    (entryEnc : String → String → String → String)
    (sha256s : String → String) (hmacF : String → String → String)
    (hinj : ∀ k, Function.Injective fun m => hmacF m k)
    (masterHex M ivE tsE eid : String) :
    (∀ ct', ct' ≠ entryEnc M masterHex ivE →
      decryptEntryFlow entryDec sha256s hmacF masterHex
        { mkEntry (encryptEntryWithMaster entryEnc sha256s hmacF masterHex M ivE tsE) eid
          with ciphertext := ct' } = .error .integrityFailure) ∧
    (∀ mac', mac' ≠ hmacF (ivE ++ "|" ++ entryEnc M masterHex ivE ++ "|" ++ tsE)
        (sha256s masterHex) →
      decryptEntryFlow entryDec sha256s hmacF masterHex
        { mkEntry (encryptEntryWithMaster entryEnc sha256s hmacF masterHex M ivE tsE) eid
          with hmac := mac' } = .error .integrityFailure) := by
  constructor
  · intro ct' hne
    have hmsg : hmacF (ivE ++ "|" ++ ct' ++ "|" ++ tsE) (sha256s masterHex) ≠
        hmacF (ivE ++ "|" ++ entryEnc M masterHex ivE ++ "|" ++ tsE) (sha256s masterHex) := by
      intro h
      have hstr := hinj (sha256s masterHex) h
      have hshape : (ivE ++ "|") ++ ct' ++ ("|" ++ tsE) =
          (ivE ++ "|") ++ entryEnc M masterHex ivE ++ ("|" ++ tsE) := by
        simpa [String.append_assoc] using hstr
      exact hne (string_middle_cancel hshape)
    simp only [decryptEntryFlow, verifyEntryHMAC, mkEntry, encryptEntryWithMaster]
    rw [if_neg (by simpa using hmsg)]
  · intro mac' hne
    simp only [decryptEntryFlow, verifyEntryHMAC, mkEntry, encryptEntryWithMaster]
    rw [if_neg (by simpa using fun h => hne h.symm)]

/-- Witness for C8: with the tagged-concatenation HMAC stand-in, flipping
the ciphertext or the stored HMAC of a concrete encrypted entry is
rejected as an integrity failure. -/
theorem entry_tamper_fails_integrity_witness :
    decryptEntryFlow (fun c _ _ => some c) (fun k => k) hmacW "mk"
      { mkEntry (encryptEntryWithMaster (fun p _ _ => p) (fun k => k) hmacW
          "mk" "hello" "iv1" "t1") "e1" with ciphertext := "hellp" }
      = .error .integrityFailure ∧
    decryptEntryFlow (fun c _ _ => some c) (fun k => k) hmacW "mk"
      { mkEntry (encryptEntryWithMaster (fun p _ _ => p) (fun k => k) hmacW
          "mk" "hello" "iv1" "t1") "e1" with hmac := "bad" }
      = .error .integrityFailure :=
  ⟨(entry_tamper_fails_integrity _ _ _ _ hmacW_inj "mk" "hello" "iv1" "t1" "e1").1
      "hellp" (by decide),
    (entry_tamper_fails_integrity _ _ _ _ hmacW_inj "mk" "hello" "iv1" "t1" "e1").2
      "bad" (by decide)⟩

/-! ## C5 — panic wipe leaves the key material behind -/

/-- C5 (divergence witness): `performPanicWipe` clears the `vault_entries`
key, but never deletes any SecureStore key-material record — the wrapped
key survives the wipe verbatim, the flow's own post-check detects the
residue and appends `panic_wipe_failed`, and a subsequent unlock attempt
still reaches the passphrase check (it can fail `wrongPassphrase` but
never reports the vault as uninitialized). -/
theorem panic_wipe_preserves_wrapped_key (junk : Nat → Nat → String)
    (now : String) (st : AppState) (w : WrappedObj) (s i : String)
    (hw : st.wrappedKey = some w) (hs : st.salt = some s) (hi : st.iter = some i) :
    (performPanicWipe junk now st).wrappedKey = some w ∧
    (performPanicWipe junk now st).entries = none ∧
    loadEntriesOf (performPanicWipe junk now st) = [] ∧
    (performPanicWipe junk now st).tamperLog =
      mkLogItem now "panic_wiped" none none ::
        mkLogItem now "panic_wipe_failed" (some "Data still exists after wipe") none ::
          st.tamperLog ∧
    ∀ (wrapDec : String → String → String → Option String)
      (pbkdf2 : String → String → Nat → String) (pass : String),
      unlockResult wrapDec pbkdf2 (performPanicWipe junk now st) pass ≠
        .error .noVault := by
  have hfail : (performPanicWipe junk now st) =
      { st with entries := none
                tamperLog := mkLogItem now "panic_wiped" none none ::
                  mkLogItem now "panic_wipe_failed"
                    (some "Data still exists after wipe") none :: st.tamperLog } := by
    simp [performPanicWipe, loadEntriesOf, hw]
  rw [hfail]
  refine ⟨hw, rfl, rfl, rfl, ?_⟩
  intro wrapDec pbkdf2 pass
  simp only [unlockResult, hw, hs, hi]
  cases wrapDec w.wrapped (pbkdf2 pass s ((jsParseInt i).getD 0)) w.wrapIvHex with
  | none => simp
  | some m =>
    by_cases hbad : m = "" ∨ m.length ≠ 64
    · simp [if_pos hbad]
    · simp [if_neg hbad]

/-- Witness for C5's divergence theorem at a concrete initialized vault. -/
theorem panic_wipe_preserves_wrapped_key_witness :
    (performPanicWipe (fun _ _ => "junk") "tW"
      { wrappedKey := some ⟨"wrapped0", "iv0"⟩, salt := some "salt0"
        iter := some "100000", created := some "t0"
        entries := some [entryA], tamperLog := [] }).wrappedKey = some ⟨"wrapped0", "iv0"⟩ ∧
    (performPanicWipe (fun _ _ => "junk") "tW"
      { wrappedKey := some ⟨"wrapped0", "iv0"⟩, salt := some "salt0"
        iter := some "100000", created := some "t0"
        entries := some [entryA], tamperLog := [] }).entries = none ∧
    loadEntriesOf (performPanicWipe (fun _ _ => "junk") "tW"
      { wrappedKey := some ⟨"wrapped0", "iv0"⟩, salt := some "salt0"
        iter := some "100000", created := some "t0"
        entries := some [entryA], tamperLog := [] }) = [] ∧
    (performPanicWipe (fun _ _ => "junk") "tW"
      { wrappedKey := some ⟨"wrapped0", "iv0"⟩, salt := some "salt0"
        iter := some "100000", created := some "t0"
        entries := some [entryA], tamperLog := [] }).tamperLog =
      mkLogItem "tW" "panic_wiped" none none ::
        mkLogItem "tW" "panic_wipe_failed" (some "Data still exists after wipe") none :: [] ∧
    ∀ (wrapDec : String → String → String → Option String)
      (pbkdf2 : String → String → Nat → String) (pass : String),
      unlockResult wrapDec pbkdf2 (performPanicWipe (fun _ _ => "junk") "tW"
        { wrappedKey := some ⟨"wrapped0", "iv0"⟩, salt := some "salt0"
          iter := some "100000", created := some "t0"
          entries := some [entryA], tamperLog := [] }) pass ≠ .error .noVault :=
  panic_wipe_preserves_wrapped_key _ _ _ _ _ _ rfl rfl rfl

/-! ## C7 — migration idempotence -/

/-- Every block the migration rebuild produces carries a truthy
`blockHash` (the hash backend never returns the empty string) and a
defined `prevHash`, so none of them is legacy. -/
theorem migrateGo_nonLegacy (sha : String → String) (hsha : ∀ s, sha s ≠ "")
    (parseISO : String → Option String) (now : String) (nonces : Nat → String) :
    ∀ (l : List Block) (i : Nat) (prev : Option String) (b : Block),
      b ∈ migrateGo sha parseISO now nonces i prev l → isLegacyBlock b = false := by
  intro l
  induction l with
  | nil => intro i prev b hb; simp [migrateGo] at hb
  | cons item rest ih =>
    intro i prev b hb
    simp only [migrateGo, List.mem_cons] at hb
    rcases hb with hb | hb
    · subst hb
      simp [isLegacyBlock, truthyStr, computeBlockHash, hsha _]
    · exact ih _ _ _ hb

/-- On a store with no legacy record, `ensureMigrated` is a no-op. -/
theorem ensureMigrated_noop (sha : String → String)
    (parseISO : String → Option String) (now : String) (nonces : Nat → String)
    (stored : List Block) (h : stored.any isLegacyBlock = false) :
    ensureMigrated sha parseISO now nonces stored = stored := by
  cases stored with
  | nil => rfl
  | cons a rest => simp [ensureMigrated, h]

/-- C7: `ensureMigrated` is idempotent — whatever the stored tamper log,
a second run (with any later clock and any fresh nonce draws) leaves the
array produced by the first run unchanged: after one migration every item
has a `blockHash` and a defined `prevHash`, so the second run detects no
legacy entry and rewrites nothing. -/
theorem ensureMigrated_idempotent (sha : String → String) (hsha : ∀ s, sha s ≠ "")
    (p1 p2 : String → Option String) (n1 n2 : String) (nn1 nn2 : Nat → String)
    (stored : List Block) :
    ensureMigrated sha p2 n2 nn2 (ensureMigrated sha p1 n1 nn1 stored) =
      ensureMigrated sha p1 n1 nn1 stored := by
  cases stored with
  | nil => rfl
  | cons a rest =>
    by_cases hleg : (a :: rest).any isLegacyBlock
    · have h1 : ensureMigrated sha p1 n1 nn1 (a :: rest) =
          (migrateGo sha p1 n1 nn1 0 none (a :: rest).reverse).reverse := by
        simp [ensureMigrated, hleg]
      rw [h1]
      apply ensureMigrated_noop
      rw [List.any_eq_false]
      intro b hb
      have hb2 : b ∈ migrateGo sha p1 n1 nn1 0 none (a :: rest).reverse :=
        List.mem_reverse.mp hb
      simp [migrateGo_nonLegacy sha hsha p1 n1 nn1 _ _ _ _ hb2]
    · have h0 : (a :: rest).any isLegacyBlock = false := by
        simpa using hleg
      rw [ensureMigrated_noop sha p1 n1 nn1 _ h0,
        ensureMigrated_noop sha p2 n2 nn2 _ h0]

/-- Witness for C7: a concrete two-item legacy log (no `blockHash`, no
`prevHash`), migrated once, is left untouched by a second migration run
with a different clock and nonce supply. -/
theorem ensureMigrated_idempotent_witness :
    ensureMigrated hashW (fun _ => none) "now2" (fun i => toString i ++ "B")
        (ensureMigrated hashW (fun _ => none) "now1" (fun i => toString i ++ "A")
          [{ ts := some "t2", event := some "unlocked" },
           { ts := some "t1", event := some "vault_created" }]) =
      ensureMigrated hashW (fun _ => none) "now1" (fun i => toString i ++ "A")
        [{ ts := some "t2", event := some "unlocked" },
         { ts := some "t1", event := some "vault_created" }] :=
  ensureMigrated_idempotent hashW hashW_ne_empty _ _ _ _ _ _ _

/-! ## C10 — custody and nonce do not influence verification -/

/-- Projection of a block's fields onto everything except `custody` and
`nonce`. -/
def stripCN (b : BlockFields) : BlockFields :=
  { b with custody := none, nonce := none }

/-- Agreement of the `_raw` backups up to `custody` / `nonce`. -/
def rawAgree : Option BlockFields → Option BlockFields → Prop
  | none, none => True
  | some r1, some r2 => stripCN r1 = stripCN r2
  | _, _ => False

/-- Two stored blocks that differ at most in their `custody` and `nonce`
values (also inside the `_raw` backup). -/
def agreeCN (b1 b2 : Block) : Prop :=
  stripCN b1.toBlockFields = stripCN b2.toBlockFields ∧ rawAgree b1.raw b2.raw

/-- The canonical string reads none of the stripped fields. -/
theorem canon_congr {f1 f2 : BlockFields} (h : stripCN f1 = stripCN f2) :
    canonicalStringForBlock f1 = canonicalStringForBlock f2 := by
  have hseq : f1.seq = f2.seq := show (stripCN f1).seq = (stripCN f2).seq from congrArg BlockFields.seq h
  have hts : f1.ts = f2.ts := show (stripCN f1).ts = (stripCN f2).ts from congrArg BlockFields.ts h
  have hev : f1.event = f2.event := show (stripCN f1).event = (stripCN f2).event from congrArg BlockFields.event h
  have hdet : f1.detail = f2.detail := show (stripCN f1).detail = (stripCN f2).detail from congrArg BlockFields.detail h
  have hid : f1.id = f2.id := show (stripCN f1).id = (stripCN f2).id from congrArg BlockFields.id h
  have hfile : f1.file = f2.file := show (stripCN f1).file = (stripCN f2).file from congrArg BlockFields.file h
  have hhhash : f1.hash = f2.hash := show (stripCN f1).hash = (stripCN f2).hash from congrArg BlockFields.hash h
  have hsig : f1.signature = f2.signature := show (stripCN f1).signature = (stripCN f2).signature from congrArg BlockFields.signature h
  have hprev : f1.prevHash = f2.prevHash := show (stripCN f1).prevHash = (stripCN f2).prevHash from congrArg BlockFields.prevHash h
  simp only [canonicalStringForBlock, hseq, hts, hev, hdet, hid, hfile, hhhash,
    hsig, hprev]

/-- The verification walk returns identical results on chains that agree up
to `custody` / `nonce`. -/
theorem verifyLoop_congr (sha : String → String) :
    ∀ {l1 l2 : List Block}, List.Forall₂ agreeCN l1 l2 → ∀ prev,
      verifyLoop sha prev l1 = verifyLoop sha prev l2 := by
  intro l1 l2 h
  induction h with
  | nil => intro prev; rfl
  | @cons a b la lb hab htail ih =>
    intro prev
    obtain ⟨hs, _⟩ := hab
    have hch := congrArg sha (canon_congr hs)
    have hbh : a.blockHash = b.blockHash :=
      show (stripCN a.toBlockFields).blockHash = (stripCN b.toBlockFields).blockHash from
        congrArg BlockFields.blockHash hs
    have hph : a.prevHash = b.prevHash :=
      show (stripCN a.toBlockFields).prevHash = (stripCN b.toBlockFields).prevHash from
        congrArg BlockFields.prevHash hs
    have hsq : a.seq = b.seq :=
      show (stripCN a.toBlockFields).seq = (stripCN b.toBlockFields).seq from
        congrArg BlockFields.seq hs
    simp only [verifyLoop, computeBlockHash, hch, hbh, hph, hsq]
    rw [ih]

/-- Chain verification (post-migration) is invariant under `custody` /
`nonce` differences. -/
theorem verifyChainStored_congr (sha : String → String) {l1 l2 : List Block}
    (h : List.Forall₂ agreeCN l1 l2) :
    verifyChainStored sha l1 = verifyChainStored sha l2 := by
  have hlen := h.length_eq
  have hrev : List.Forall₂ agreeCN l1.reverse l2.reverse :=
    List.forall₂_reverse_iff.mpr h
  simp only [verifyChainStored, List.isEmpty_iff_length_eq_zero, hlen,
    verifyLoop_congr sha hrev none]

/-- Legacy detection reads only fields preserved by `stripCN`. -/
theorem isLegacy_congr {b1 b2 : Block} (h : agreeCN b1 b2) :
    isLegacyBlock b1 = isLegacyBlock b2 := by
  have hbh : b1.blockHash = b2.blockHash :=
    show (stripCN b1.toBlockFields).blockHash = (stripCN b2.toBlockFields).blockHash from
      congrArg BlockFields.blockHash h.1
  have hph : b1.prevHash = b2.prevHash :=
    show (stripCN b1.toBlockFields).prevHash = (stripCN b2.toBlockFields).prevHash from
      congrArg BlockFields.prevHash h.1
  simp only [isLegacyBlock, hbh, hph]

/-- The migration rebuild maps agreeing chains to agreeing chains: the
rebuilt nonce may differ (it falls back on the original nonce), the
custody value is copied, and both are stripped; all canonical fields and
the recomputed hashes coincide. -/
theorem migrateGo_congr (sha : String → String) (parseISO : String → Option String)
    (now : String) (nonces : Nat → String) :
    ∀ {l1 l2 : List Block}, List.Forall₂ agreeCN l1 l2 → ∀ (i : Nat) (prev : Option String),
      List.Forall₂ agreeCN (migrateGo sha parseISO now nonces i prev l1)
        (migrateGo sha parseISO now nonces i prev l2) := by
  intro l1 l2 h
  induction h with
  | nil => intro i prev; exact List.Forall₂.nil
  | @cons a b la lb hab htail ih =>
    intro i prev
    obtain ⟨hs, hraw⟩ := hab
    have hts : a.ts = b.ts :=
      show (stripCN a.toBlockFields).ts = (stripCN b.toBlockFields).ts from
        congrArg BlockFields.ts hs
    have htsp : a.timestamp = b.timestamp :=
      show (stripCN a.toBlockFields).timestamp = (stripCN b.toBlockFields).timestamp from
        congrArg BlockFields.timestamp hs
    have hev : a.event = b.event :=
      show (stripCN a.toBlockFields).event = (stripCN b.toBlockFields).event from
        congrArg BlockFields.event hs
    have hty : a.type_ = b.type_ :=
      show (stripCN a.toBlockFields).type_ = (stripCN b.toBlockFields).type_ from
        congrArg BlockFields.type_ hs
    have hdet : a.detail = b.detail :=
      show (stripCN a.toBlockFields).detail = (stripCN b.toBlockFields).detail from
        congrArg BlockFields.detail hs
    have hmsg : a.message = b.message :=
      show (stripCN a.toBlockFields).message = (stripCN b.toBlockFields).message from
        congrArg BlockFields.message hs
    have hid : a.id = b.id :=
      show (stripCN a.toBlockFields).id = (stripCN b.toBlockFields).id from
        congrArg BlockFields.id hs
    have hfile : a.file = b.file :=
      show (stripCN a.toBlockFields).file = (stripCN b.toBlockFields).file from
        congrArg BlockFields.file hs
    have hhash : a.hash = b.hash :=
      show (stripCN a.toBlockFields).hash = (stripCN b.toBlockFields).hash from
        congrArg BlockFields.hash hs
    have hsig : a.signature = b.signature :=
      show (stripCN a.toBlockFields).signature = (stripCN b.toBlockFields).signature from
        congrArg BlockFields.signature hs
    simp only [migrateGo, hts, htsp, hev, hty, hdet, hmsg, hid, hfile, hhash, hsig]
    have hhEq : computeBlockHash sha
        { seq := some ((i : Int) + 1)
          ts := some (match parseISO (jsOrS b.ts (jsOrS b.timestamp "")) with
            | some iso => iso
            | none => jsOrS b.ts (jsOrS b.timestamp now))
          nonce := some (jsOrS a.nonce (nonces i))
          event := some (jsOrS b.event (jsOrS b.type_ "event"))
          detail := some (jsOrS b.detail (jsOrS b.message ""))
          id := b.id, file := b.file, hash := b.hash
          custody := a.custody, signature := b.signature
          prevHash := some (jsOrNull prev) } =
        computeBlockHash sha
        { seq := some ((i : Int) + 1)
          ts := some (match parseISO (jsOrS b.ts (jsOrS b.timestamp "")) with
            | some iso => iso
            | none => jsOrS b.ts (jsOrS b.timestamp now))
          nonce := some (jsOrS b.nonce (nonces i))
          event := some (jsOrS b.event (jsOrS b.type_ "event"))
          detail := some (jsOrS b.detail (jsOrS b.message ""))
          id := b.id, file := b.file, hash := b.hash
          custody := b.custody, signature := b.signature
          prevHash := some (jsOrNull prev) } :=
      congrArg sha (canon_congr (by simp [stripCN]))
    refine List.Forall₂.cons ⟨?_, ?_⟩ ?_
    · simp only [stripCN, BlockFields.mk.injEq, and_true, true_and]
      simp [hhEq]
    · rcases hA : a.raw with _ | r1 <;> rcases hB : b.raw with _ | r2 <;>
        rw [hA, hB] at hraw
      · exact hs
      · exact absurd hraw (by simp [rawAgree])
      · exact absurd hraw (by simp [rawAgree])
      · exact hraw
    · rw [hhEq]
      exact ih (i + 1) _

/-- The lazy migration preserves agreement up to `custody` / `nonce`. -/
theorem ensureMigrated_congr (sha : String → String)
    (parseISO : String → Option String) (now : String) (nonces : Nat → String)
    {l1 l2 : List Block} (h : List.Forall₂ agreeCN l1 l2) :
    List.Forall₂ agreeCN (ensureMigrated sha parseISO now nonces l1)
      (ensureMigrated sha parseISO now nonces l2) := by
  have hlen := h.length_eq
  have hany : l1.any isLegacyBlock = l2.any isLegacyBlock := by
    clear hlen
    induction h with
    | nil => rfl
    | cons hab ht ih => simp [List.any_cons, isLegacy_congr hab, ih]
  by_cases hE : l1.isEmpty
  · have hE2 : l2.isEmpty = true := by
      rw [List.isEmpty_iff_length_eq_zero] at hE ⊢
      rw [← hlen]; exact hE
    rw [ensureMigrated, ensureMigrated, if_pos hE, if_pos hE2]
    exact h
  · have hE2 : ¬ l2.isEmpty = true := by
      rw [List.isEmpty_iff_length_eq_zero] at hE ⊢
      rw [← hlen]; exact hE
    by_cases hA : l1.any isLegacyBlock
    · have hA2 : l2.any isLegacyBlock = true := by rw [← hany]; exact hA
      rw [ensureMigrated, ensureMigrated, if_neg hE, if_neg hE2,
        if_neg (by simp [hA]), if_neg (by simp [hA2])]
      exact List.forall₂_reverse_iff.mpr
        (migrateGo_congr sha parseISO now nonces
          (List.forall₂_reverse_iff.mpr h) 0 none)
    · have hA2 : ¬ l2.any isLegacyBlock = true := by rw [← hany]; exact hA
      rw [ensureMigrated, ensureMigrated, if_neg hE, if_neg hE2,
        if_pos (by simp [hA]), if_pos (by simp [hA2])]
      exact h

/-- C10: the `custody` and `nonce` fields of stored audit blocks have no
influence on verification — for any two stored chains that differ only in
the `custody` and/or `nonce` values of any blocks, `verifyChain` returns
the same `ok`, `breaks`, `head` and per-block details; in particular
mutating a block's `custody` or `nonce` after it is appended is never
reported as a break. -/
theorem verifyChain_ignores_custody_and_nonce (sha : String → String)
    (parseISO : String → Option String) (now : String) (nonces : Nat → String)
    {s1 s2 : List Block} (h : List.Forall₂ agreeCN s1 s2) :
    verifyChainFull sha parseISO now nonces s1 =
      verifyChainFull sha parseISO now nonces s2 :=
  verifyChainStored_congr sha (ensureMigrated_congr sha parseISO now nonces h)

/-- Witness for C10: a concrete one-block chain and its custody- and
nonce-mutated copy verify identically. -/
theorem verifyChain_ignores_custody_and_nonce_witness :
    verifyChainFull hashW (fun _ => none) "m" (fun _ => "n")
      [{ seq := some 1, ts := some "t", event := some "e",
         nonce := some "n1", custody := some "court"
         prevHash := some none, blockHash := some "H" }] =
    verifyChainFull hashW (fun _ => none) "m" (fun _ => "n")
      [{ seq := some 1, ts := some "t", event := some "e",
         nonce := some "n2", custody := some "attacker"
         prevHash := some none, blockHash := some "H" }] :=
  verifyChain_ignores_custody_and_nonce hashW (fun _ => none) "m" (fun _ => "n")
    (List.Forall₂.cons ⟨rfl, trivial⟩ List.Forall₂.nil)

/-! ## C2 — monotone, verifiable chains from appendEvent -/

/-- Invariant of a stored (newest-first) tamper log built by `appendEvent`
from empty: `k` blocks with `seq` running `k, k-1, …, 1` downward, each
hashed over its own canonical string with a nonempty digest, each linking
through `prevHash` to the stored hash of its chronological predecessor;
`prev` is the newest block's stored `blockHash` (`none` when empty). -/
def storedInv (sha : String → String) : List Block → Nat → Option String → Prop
  | [], k, prev => k = 0 ∧ prev = none
  | b :: rest, k, prev =>
    ∃ p2, storedInv sha rest (k - 1) p2 ∧
      b.seq = some (k : Int) ∧ 0 < k ∧
      prev = b.blockHash ∧
      b.blockHash = some (computeBlockHash sha b.toBlockFields) ∧
      computeBlockHash sha b.toBlockFields ≠ "" ∧
      b.prevHash = some p2

theorem storedInv_length (sha : String → String) :
    ∀ {l : List Block} {k : Nat} {prev : Option String},
      storedInv sha l k prev → l.length = k := by
  intro l
  induction l with
  | nil => intro k prev h; simp [storedInv] at h; simp [h.1]
  | cons b rest ih =>
    intro k prev h
    obtain ⟨p2, hrest, _, hk, _⟩ := h
    have := ih hrest
    simp only [List.length_cons, this]
    omega

theorem storedInv_seq_le (sha : String → String) :
    ∀ {l : List Block} {k : Nat} {prev : Option String},
      storedInv sha l k prev → ∀ b ∈ l, ∀ n : Int, b.seq = some n → n ≤ (k : Int) := by
  intro l
  induction l with
  | nil => intro k prev _ b hb; simp at hb
  | cons c rest ih =>
    intro k prev h b hb n hn
    obtain ⟨p2, hrest, hseq, hk, _⟩ := h
    rcases List.mem_cons.mp hb with hb | hb
    · subst hb
      rw [hn] at hseq
      simp at hseq
      omega
    · have := ih hrest b hb n hn
      have hle : ((k - 1 : Nat) : Int) ≤ (k : Int) := by
        exact_mod_cast Nat.sub_le k 1
      omega

theorem foldl_seqFold_const :
    ∀ (l : List Block) (acc : Int),
      (∀ b ∈ l, ∀ n : Int, b.seq = some n → n ≤ acc) →
      l.foldl seqFoldStep acc = acc := by
  intro l
  induction l with
  | nil => intro acc _; rfl
  | cons b rest ih =>
    intro acc h
    have hstep : seqFoldStep acc b = acc := by
      unfold seqFoldStep
      cases hs : b.seq with
      | none => rfl
      | some n =>
        have := h b (by simp) n hs
        simp [not_lt.mpr this]
    simp only [List.foldl_cons, hstep]
    exact ih acc (fun b hb => h b (by simp [hb]))

theorem storedInv_lastSeq (sha : String → String) {l : List Block} {k : Nat}
    {prev : Option String} (h : storedInv sha l k prev) :
    lastSeqOf l = (k : Int) := by
  cases l with
  | nil => simp [storedInv] at h; simp [lastSeqOf, h.1]
  | cons b rest =>
    obtain ⟨p2, hrest, hseq, hk, _⟩ := h
    have hstep : seqFoldStep 0 b = (k : Int) := by
      unfold seqFoldStep
      rw [hseq]
      simp [show (0 : Int) < (k : Int) by exact_mod_cast hk]
    simp only [lastSeqOf, List.foldl_cons, hstep]
    apply foldl_seqFold_const
    intro b2 hb2 n hn
    have := storedInv_seq_le sha hrest b2 hb2 n hn
    have hle : ((k - 1 : Nat) : Int) ≤ (k : Int) := by exact_mod_cast Nat.sub_le k 1
    omega

theorem foldl_maxSeq_const :
    ∀ (l : List Block) (a : Block),
      (∀ b ∈ l, ∀ n : Int, b.seq = some n → n ≤ a.seq.getD 0) →
      l.foldl maxSeqStep (some a) = some a := by
  intro l
  induction l with
  | nil => intro a _; rfl
  | cons b rest ih =>
    intro a h
    have hstep : maxSeqStep (some a) b = some a := by
      unfold maxSeqStep
      cases hs : b.seq with
      | none => rfl
      | some n =>
        have := h b (by simp) n hs
        simp [not_lt.mpr this]
    simp only [List.foldl_cons, hstep]
    exact ih a (fun b hb => h b (by simp [hb]))

theorem storedInv_lastBlockHash (sha : String → String) {l : List Block} {k : Nat}
    {prev : Option String} (h : storedInv sha l k prev) :
    lastBlockHashOf l = prev := by
  cases l with
  | nil => simp [storedInv] at h; simp [lastBlockHashOf, maxSeqItemOf, h.2]
  | cons b rest =>
    obtain ⟨p2, hrest, hseq, hk, hprev, hbh, hne, _⟩ := h
    have hmax : maxSeqItemOf (b :: rest) = some b := by
      simp only [maxSeqItemOf, List.foldl_cons]
      show List.foldl maxSeqStep (some b) rest = some b
      apply foldl_maxSeq_const
      intro b2 hb2 n hn
      have := storedInv_seq_le sha hrest b2 hb2 n hn
      have hle : ((k - 1 : Nat) : Int) ≤ (k : Int) := by exact_mod_cast Nat.sub_le k 1
      rw [hseq]
      simp
      omega
    rw [lastBlockHashOf, hmax]
    simp only [hbh, hprev]
    simp [hne]

theorem storedInv_nonLegacy (sha : String → String) :
    ∀ {l : List Block} {k : Nat} {prev : Option String},
      storedInv sha l k prev → l.any isLegacyBlock = false := by
  intro l
  induction l with
  | nil => intro k prev _; rfl
  | cons b rest ih =>
    intro k prev h
    obtain ⟨p2, hrest, _, _, _, hbh, hne, hph⟩ := h
    simp only [List.any_cons, ih hrest, Bool.or_false]
    simp [isLegacyBlock, truthyStr, hbh, hne, hph]

theorem storedInv_jsOrNull_prev (sha : String → String) {l : List Block} {k : Nat}
    {prev : Option String} (h : storedInv sha l k prev) : jsOrNull prev = prev := by
  cases l with
  | nil => simp [storedInv] at h; simp [jsOrNull, h.2]
  | cons b rest =>
    obtain ⟨p2, _, _, _, hprev, hbh, hne, _⟩ := h
    rw [hprev, hbh]
    simp [jsOrNull, hne]

/-- Effect of the core append on an invariant store: the new block is
unshifted and the invariant advances by one, the new head hash being the
fresh block's canonical hash. -/
theorem appendEventCore_inv (sha : String → String) (hsha : ∀ s, sha s ≠ "")
    {stored : List Block} {k : Nat} {prev : Option String}
    (hinv : storedInv sha stored k prev) (ev : EventPayload) (ts nonce : String) :
    (appendEventCore sha stored ev ts nonce).2 =
      (appendEventCore sha stored ev ts nonce).1 :: stored ∧
    storedInv sha (appendEventCore sha stored ev ts nonce).2 (k + 1)
      (some (computeBlockHash sha
        (appendEventCore sha stored ev ts nonce).1.toBlockFields)) := by
  constructor
  · rfl
  · show storedInv sha ((appendEventCore sha stored ev ts nonce).1 :: stored) (k + 1) _
    refine ⟨prev, by simpa using hinv, ?_, Nat.succ_pos k, rfl, ?_, ?_, ?_⟩
    · show some (lastSeqOf stored + 1) = some ((k + 1 : Nat) : Int)
      rw [storedInv_lastSeq sha hinv]
      push_cast
      rfl
    · rfl
    · exact hsha _
    · show some (jsOrNull (lastBlockHashOf stored)) = some prev
      rw [storedInv_lastBlockHash sha hinv, storedInv_jsOrNull_prev sha hinv]

/-- A run of full `appendEvent` calls keeps the invariant, the migration
step being a no-op throughout. -/
theorem appendRun_inv (sha : String → String) (hsha : ∀ s, sha s ≠ "")
    (parseISO : String → Option String) :
    ∀ (steps : List StepInput) {stored : List Block} {k : Nat} {prev : Option String},
      storedInv sha stored k prev →
      ∃ prev2, storedInv sha (appendRun sha parseISO steps stored)
        (k + steps.length) prev2 := by
  intro steps
  induction steps with
  | nil => intro stored k prev h; exact ⟨prev, by simpa using h⟩
  | cons s rest ih =>
    intro stored k prev h
    have hmig : ensureMigrated sha parseISO s.migNow s.migNonces stored = stored :=
      ensureMigrated_noop sha parseISO s.migNow s.migNonces stored
        (storedInv_nonLegacy sha h)
    have happ := appendEventCore_inv sha hsha h s.ev s.ts s.nonce
    have hstep : appendRun sha parseISO (s :: rest) stored =
        appendRun sha parseISO rest (appendEventCore sha stored s.ev s.ts s.nonce).2 := by
      simp only [appendRun, List.foldl_cons, appendEventFull, hmig]
    rw [hstep]
    obtain ⟨prev2, h2⟩ := ih happ.2
    exact ⟨prev2, by
      have : k + 1 + rest.length = k + (rest.length + 1) := by omega
      rw [this] at h2
      simpa using h2⟩

theorem prevHashString_some (o : Option String) :
    prevHashString (some o) = orEmpty o := by
  cases o <;> rfl

/-- The verification walk distributes over list append, threading the
running `prev` and adding break counts. -/
theorem verifyLoop_append (sha : String → String) :
    ∀ (xs ys : List Block) (prev : Option String),
      verifyLoop sha prev (xs ++ ys) =
        ((verifyLoop sha prev xs).1 +
            (verifyLoop sha (verifyLoop sha prev xs).2.1 ys).1,
          (verifyLoop sha (verifyLoop sha prev xs).2.1 ys).2.1,
          (verifyLoop sha prev xs).2.2 ++
            (verifyLoop sha (verifyLoop sha prev xs).2.1 ys).2.2) := by
  intro xs
  induction xs with
  | nil => intro ys prev; simp [verifyLoop]
  | cons x rest ih =>
    intro ys prev
    simp only [List.cons_append, verifyLoop, List.append_eq]
    rw [ih]
    simp [Nat.add_assoc]

/-- One verification step on a block whose stored hash is its canonical
hash and whose stored `prevHash` is the incoming `prev`. -/
theorem verifyLoop_single_good (sha : String → String) (b : Block)
    (p2 : Option String) (hprev : b.prevHash = some p2)
    (hbh : b.blockHash = some (computeBlockHash sha b.toBlockFields))
    (hne : computeBlockHash sha b.toBlockFields ≠ "") :
    (verifyLoop sha p2 [b]).1 = 0 ∧ (verifyLoop sha p2 [b]).2.1 = b.blockHash := by
  simp only [verifyLoop, hprev, hbh, prevHashString_some]
  constructor
  · simp [orEmpty]
  · simp [hne]

/-- On an invariant store the verification walk over the chronological
chain reports zero breaks and ends on the newest stored hash. -/
theorem storedInv_verifyLoop (sha : String → String) :
    ∀ {l : List Block} {k : Nat} {prev : Option String},
      storedInv sha l k prev →
      (verifyLoop sha none l.reverse).1 = 0 ∧
        (verifyLoop sha none l.reverse).2.1 = prev := by
  intro l
  induction l with
  | nil => intro k prev h; simp [storedInv] at h; simp [verifyLoop, h.2]
  | cons b rest ih =>
    intro k prev h
    obtain ⟨p2, hrest, hseq, hk, hprev, hbh, hne, hph⟩ := h
    obtain ⟨ihb, ihp⟩ := ih hrest
    have hsingle := verifyLoop_single_good sha b p2 hph hbh hne
    have happ := verifyLoop_append sha rest.reverse [b] none
    simp only [List.reverse_cons, happ, ihb, ihp, hsingle.1, hsingle.2]
    simp [hprev]

theorem storedInv_seq_at (sha : String → String) :
    ∀ {l : List Block} {k : Nat} {prev : Option String},
      storedInv sha l k prev → ∀ i, i < l.length →
        l[i]!.seq = some ((k - i : Nat) : Int) := by
  intro l
  induction l with
  | nil => intro k prev _ i hi; simp at hi
  | cons b rest ih =>
    intro k prev h i hi
    obtain ⟨p2, hrest, hseq, hk, _⟩ := h
    cases i with
    | zero => simpa [getElem!_pos] using hseq
    | succ j =>
      have hj : j < rest.length := by simpa using hi
      have := ih hrest j hj
      have hcast : (k - (j + 1) : Nat) = (k - 1 - j : Nat) := by omega
      simpa [List.getElem!_cons_succ, hcast] using this

theorem storedInv_prevLink (sha : String → String) :
    ∀ {l : List Block} {k : Nat} {prev : Option String},
      storedInv sha l k prev → ∀ i, i + 1 < l.length →
        l[i]!.prevHash = some (l[i + 1]!.blockHash) := by
  intro l
  induction l with
  | nil => intro k prev _ i hi; simp at hi
  | cons b rest ih =>
    intro k prev h i hi
    obtain ⟨p2, hrest, hseq, hk, hprev, hbh, hne, hph⟩ := h
    cases i with
    | zero =>
      cases rest with
      | nil => simp at hi
      | cons c rest2 =>
        obtain ⟨p3, _, _, _, hp2, _⟩ := hrest
        have h0 : (b :: c :: rest2)[0]! = b := by
          rw [getElem!_pos] <;> simp
        have h1 : (b :: c :: rest2)[0 + 1]! = c := by
          rw [getElem!_pos] <;> simp
        rw [h0, h1, hph, hp2]
    | succ j =>
      have hj : j + 1 < rest.length := by simpa using hi
      simpa [List.getElem!_cons_succ] using ih hrest j hj

theorem reverse_getElemBang (l : List Block) (i : Nat) (h : i < l.length) :
    l.reverse[i]! = l[l.length - 1 - i]! := by
  have h1 : i < l.reverse.length := by simpa using h
  have h2 : l.length - 1 - i < l.length := by omega
  rw [getElem!_pos l.reverse i h1, getElem!_pos l (l.length - 1 - i) h2]
  rw [List.getElem_reverse]

/-- The chronologically first block of an invariant store carries the
explicit `null` predecessor. -/
theorem storedInv_last_prev (sha : String → String) :
    ∀ {l : List Block} {k : Nat} {prev : Option String},
      storedInv sha l k prev → 0 < l.length →
        l[l.length - 1]!.prevHash = some none := by
  intro l
  induction l with
  | nil => intro k prev _ h; simp at h
  | cons b rest ih =>
    intro k prev h _
    obtain ⟨p2, hrest, _, _, _, _, _, hph⟩ := h
    cases rest with
    | nil =>
      simp only [storedInv] at hrest
      have h0 : (b :: ([] : List Block))[0]! = b := by
        rw [getElem!_pos] <;> simp
      simpa [h0, hrest.2] using hph
    | cons c rest2 =>
      have hlen : (b :: c :: rest2).length - 1 = ((c :: rest2).length - 1) + 1 := by
        simp
      rw [hlen, List.getElem!_cons_succ]
      exact ih hrest (by simp)

/-- C2: after any sequence of `N` `appendEvent` calls starting from an
empty tamper log, the stored chain read chronologically has `seq` values
exactly `1..N` with no gaps, block 1 has `prevHash` `null`, every later
block's `prevHash` equals its predecessor's stored `blockHash`, and
`verifyChain` on the result reports `ok = true`, `breaks = 0`, and a head
equal to block `N`'s `blockHash` (`null` on the empty chain).  The hash
backend is assumed never to return the empty string. -/
theorem appendEvent_chain_monotone_and_verifiable (sha : String → String)
    (hsha : ∀ s, sha s ≠ "") (parseISO : String → Option String)
    (steps : List StepInput) :
    (appendRun sha parseISO steps []).length = steps.length ∧
    (∀ i, i < steps.length →
      (appendRun sha parseISO steps []).reverse[i]!.seq = some ((i : Int) + 1)) ∧
    (0 < steps.length →
      (appendRun sha parseISO steps []).reverse[0]!.prevHash = some none) ∧
    (∀ i, i + 1 < steps.length →
      (appendRun sha parseISO steps []).reverse[i + 1]!.prevHash =
        some ((appendRun sha parseISO steps []).reverse[i]!.blockHash)) ∧
    (∀ (now2 : String) (nonces2 : Nat → String),
      (verifyChainFull sha parseISO now2 nonces2 (appendRun sha parseISO steps [])).ok
          = true ∧
      (verifyChainFull sha parseISO now2 nonces2 (appendRun sha parseISO steps [])).breaks
          = 0 ∧
      (verifyChainFull sha parseISO now2 nonces2 (appendRun sha parseISO steps [])).head
          = (match (appendRun sha parseISO steps []).reverse.getLast? with
              | some b => b.blockHash
              | none => none)) := by
  obtain ⟨prev, hinv⟩ := appendRun_inv sha hsha parseISO steps
    (show storedInv sha [] 0 none from ⟨rfl, rfl⟩)
  rw [show 0 + steps.length = steps.length by omega] at hinv
  have hlen : (appendRun sha parseISO steps []).length = steps.length :=
    storedInv_length sha hinv
  set stored := appendRun sha parseISO steps [] with hstored
  refine ⟨hlen, ?_, ?_, ?_, ?_⟩
  · intro i hi
    have hi2 : i < stored.length := by omega
    rw [reverse_getElemBang stored i hi2]
    have := storedInv_seq_at sha hinv (stored.length - 1 - i) (by omega)
    rw [this]
    congr 1
    have : steps.length - (stored.length - 1 - i) = i + 1 := by omega
    rw [this]
    push_cast
    ring
  · intro hpos
    have hi2 : 0 < stored.length := by omega
    rw [reverse_getElemBang stored 0 hi2]
    have := storedInv_last_prev sha hinv hi2
    simpa using this
  · intro i hi
    have hiA : i + 1 < stored.length := by omega
    have hiB : i < stored.length := by omega
    rw [reverse_getElemBang stored (i + 1) hiA, reverse_getElemBang stored i hiB]
    have := storedInv_prevLink sha hinv (stored.length - 1 - (i + 1)) (by omega)
    have harith : stored.length - 1 - (i + 1) + 1 = stored.length - 1 - i := by omega
    rw [harith] at this
    exact this
  · intro now2 nonces2
    have hmig : ensureMigrated sha parseISO now2 nonces2 stored = stored :=
      ensureMigrated_noop sha parseISO now2 nonces2 stored
        (storedInv_nonLegacy sha hinv)
    have hfull : verifyChainFull sha parseISO now2 nonces2 stored =
        verifyChainStored sha stored := by
      rw [verifyChainFull, hmig]
    rw [hfull]
    cases hst : stored with
    | nil => simp [verifyChainStored]
    | cons b rest =>
      rw [hst] at hinv
      obtain ⟨hbreaks, hhead⟩ := storedInv_verifyLoop sha hinv
      have hne : ((b :: rest) : List Block).isEmpty = false := by simp
      obtain ⟨p2, _, _, _, hprev, _⟩ := hinv
      simp only [List.reverse_cons] at hbreaks hhead
      refine ⟨?_, ?_, ?_⟩
      · simp [verifyChainStored, hne, hbreaks]
      · simp [verifyChainStored, hne, hbreaks]
      · rw [List.getLast?_reverse]
        simp [verifyChainStored, hne, hhead, hprev]

/-- A concrete appendEvent call used by witnesses. -/
def stepW (e ts n : String) : StepInput :=
  { ev := { event := some e }, ts := ts, nonce := n, migNow := "m"
    migNonces := fun _ => "n" }

/-- Witness for C2 on a concrete two-event run. -/
theorem appendEvent_chain_monotone_and_verifiable_witness :
    (appendRun hashW (fun _ => none) [stepW "vault_created" "t1" "n1",
      stepW "entry_added" "t2" "n2"] []).length = 2 ∧
    (verifyChainFull hashW (fun _ => none) "m2" (fun _ => "n2")
      (appendRun hashW (fun _ => none) [stepW "vault_created" "t1" "n1",
        stepW "entry_added" "t2" "n2"] [])).ok = true ∧
    (verifyChainFull hashW (fun _ => none) "m2" (fun _ => "n2")
      (appendRun hashW (fun _ => none) [stepW "vault_created" "t1" "n1",
        stepW "entry_added" "t2" "n2"] [])).breaks = 0 :=
  have h := appendEvent_chain_monotone_and_verifiable hashW hashW_ne_empty
    (fun _ => none) [stepW "vault_created" "t1" "n1", stepW "entry_added" "t2" "n2"]
  ⟨h.1, (h.2.2.2.2 "m2" (fun _ => "n2")).1, (h.2.2.2.2 "m2" (fun _ => "n2")).2.1⟩

/-! ## C4 — a single detail mutation registers exactly one break -/

theorem verifyLoop_details_length (sha : String → String) :
    ∀ (l : List Block) (prev : Option String),
      (verifyLoop sha prev l).2.2.length = l.length := by
  intro l
  induction l with
  | nil => intro prev; rfl
  | cons b rest ih => intro prev; simp [verifyLoop, ih]

theorem verifyLoop_zero_all_match (sha : String → String) :
    ∀ (l : List Block) (prev : Option String),
      (verifyLoop sha prev l).1 = 0 →
      ∀ d ∈ (verifyLoop sha prev l).2.2, d.prevMatches = true ∧ d.blockMatches = true := by
  intro l
  induction l with
  | nil => intro prev _ d hd; simp [verifyLoop] at hd
  | cons b rest ih =>
    intro prev h0 d hd
    simp only [verifyLoop] at h0 hd
    by_cases hc : (prevHashString b.prevHash == orEmpty prev &&
        orEmpty b.blockHash == computeBlockHash sha b.toBlockFields) = true
    · rw [if_pos hc] at h0
      simp only [Nat.zero_add] at h0
      rcases List.mem_cons.mp hd with hd | hd
      · subst hd
        simp only [Bool.and_eq_true] at hc
        exact hc
      · exact ih _ h0 d hd
    · rw [if_neg hc] at h0
      omega

theorem reverse_set_block (l : List Block) (j : Nat) (hj : j < l.length) (b : Block) :
    (l.set j b).reverse = l.reverse.set (l.length - 1 - j) b := by
  apply List.ext_getElem
  · simp
  · intro i h1 h2
    have hi : i < l.length := by simpa using h2
    have h3 : l.length - 1 - i < l.length := by omega
    rw [List.getElem_reverse, List.getElem_set, List.getElem_set]
    simp only [List.length_set]
    by_cases hc : j = l.length - 1 - i
    · rw [if_pos hc, if_pos (by omega)]
    · rw [if_neg hc, if_neg (by omega), List.getElem_reverse]

theorem set_at_append_cons (pre post : List Block) (x b2 : Block) :
    (pre ++ x :: post).set pre.length b2 = pre ++ b2 :: post := by
  induction pre with
  | nil => rfl
  | cons p ps ih => simp [List.set, ih]

/-- The canonical string split around the `detail` component. -/
theorem canon_split (f : BlockFields) :
    canonicalStringForBlock f =
      (seqString f.seq ++ "|" ++ orEmpty f.ts ++ "|" ++ orEmpty f.event ++ "|") ++
        orEmpty f.detail ++
        ("|" ++ orEmpty f.id ++ "|" ++ orEmpty f.file ++ "|" ++ orEmpty f.hash ++
          "|" ++ orEmpty f.signature ++ "|" ++ prevHashString f.prevHash) := by
  simp [canonicalStringForBlock, String.append_assoc]

/-- Changing the `detail` component changes the canonical string. -/
theorem canon_detail_ne (f : BlockFields) (d2 : String)
    (hne : d2 ≠ orEmpty f.detail) :
    canonicalStringForBlock { f with detail := some d2 } ≠
      canonicalStringForBlock f := by
  intro h
  rw [canon_split, canon_split] at h
  exact hne (string_middle_cancel h)

theorem getElemBang_append_cons_self {α} [Inhabited α] (xs : List α) (y : α)
    (zs : List α) : (xs ++ y :: zs)[xs.length]! = y := by
  rw [getElem!_pos (xs ++ y :: zs) xs.length (by simp)]
  rw [List.getElem_append_right (Nat.le_refl xs.length)]
  simp

theorem getElemBang_append_left {α} [Inhabited α] (xs ys : List α) (k : Nat)
    (h : k < xs.length) : (xs ++ ys)[k]! = xs[k]! := by
  rw [getElem!_pos (xs ++ ys) k (by simp; omega), getElem!_pos xs k h]
  exact List.getElem_append_left h

theorem getElemBang_append_cons_right {α} [Inhabited α] (xs zs : List α) (y : α)
    (k : Nat) (h : k < zs.length) :
    (xs ++ y :: zs)[xs.length + 1 + k]! = zs[k]! := by
  rw [getElem!_pos (xs ++ y :: zs) (xs.length + 1 + k) (by simp; omega),
    getElem!_pos zs k h]
  rw [List.getElem_append_right (by omega)]
  have harith : xs.length + 1 + k - xs.length = k + 1 := by omega
  simp only [harith]
  simp

theorem getElemBang_mem {α} [Inhabited α] (l : List α) (k : Nat)
    (h : k < l.length) : l[k]! ∈ l := by
  rw [getElem!_pos l k h]
  exact List.getElem_mem h

/-- Core of the tamper-detection argument: on a chronological chain that
verifies clean, replacing the `detail` of the single block `x` (with a
canon-visibly different value) flips exactly that block's `blockMatches`
check and nothing else: the verifier still advances `prev` by the stored
hash, so the suffix re-verifies clean. -/
theorem verify_mutated_core (sha : String → String)
    (hinj : Function.Injective sha) (hsha : ∀ s, sha s ≠ "")
    (pre post : List Block) (x : Block) (d2 : String)
    (hd : d2 ≠ orEmpty x.detail)
    (h0 : (verifyLoop sha none (pre ++ x :: post)).1 = 0) :
    (verifyLoop sha none (pre ++ ({ x with detail := some d2 } : Block) :: post)).1
        = 1 ∧
    (∃ mid : VerifyDetail,
      (verifyLoop sha none
          (pre ++ ({ x with detail := some d2 } : Block) :: post)).2.2
        = (verifyLoop sha none pre).2.2 ++ mid ::
            (verifyLoop sha (some (computeBlockHash sha x.toBlockFields)) post).2.2 ∧
      mid.seq = x.seq ∧ mid.prevMatches = true ∧ mid.blockMatches = false) ∧
    (verifyLoop sha none pre).1 = 0 ∧
    (verifyLoop sha (some (computeBlockHash sha x.toBlockFields)) post).1 = 0 := by
  have h0' : (verifyLoop sha none pre).1 +
      (verifyLoop sha (verifyLoop sha none pre).2.1 (x :: post)).1 = 0 := by
    rw [verifyLoop_append] at h0
    exact h0
  set p1 := (verifyLoop sha none pre).2.1 with hp1
  have hA0 : (verifyLoop sha none pre).1 = 0 := by omega
  have hB0 : (verifyLoop sha p1 (x :: post)).1 = 0 := by omega
  simp only [verifyLoop] at hB0
  have hcx : (prevHashString x.prevHash == orEmpty p1 &&
      (orEmpty x.blockHash == computeBlockHash sha x.toBlockFields)) = true := by
    by_contra hc
    rw [if_neg hc] at hB0
    omega
  rw [if_pos hcx] at hB0
  have hcx2 : (prevHashString x.prevHash == orEmpty p1) = true ∧
      (orEmpty x.blockHash == computeBlockHash sha x.toBlockFields) = true := by
    rw [Bool.and_eq_true] at hcx
    exact hcx
  have hpx : (prevHashString x.prevHash == orEmpty p1) = true := hcx2.1
  have hbx : orEmpty x.blockHash = computeBlockHash sha x.toBlockFields :=
    eq_of_beq hcx2.2
  have hcbne : computeBlockHash sha x.toBlockFields ≠ "" := hsha _
  have hxbh : x.blockHash = some (computeBlockHash sha x.toBlockFields) := by
    cases hxx : x.blockHash with
    | none =>
      rw [hxx] at hbx
      exact absurd hbx.symm (hsha _)
    | some s =>
      rw [hxx] at hbx
      simp only [orEmpty, Option.getD_some] at hbx
      rw [hbx]
  have hpost0 : (verifyLoop sha
      (some (computeBlockHash sha x.toBlockFields)) post).1 = 0 := by
    rw [hxbh] at hB0
    simp only [hcbne, if_false, if_neg hcbne] at hB0
    omega
  set b2 : Block := { x with detail := some d2 } with hb2def
  have hb2ph : b2.prevHash = x.prevHash := rfl
  have hb2bh : b2.blockHash = x.blockHash := rfl
  have hb2seq : b2.seq = x.seq := rfl
  have hcne : computeBlockHash sha b2.toBlockFields
      ≠ computeBlockHash sha x.toBlockFields := by
    intro h
    exact canon_detail_ne x.toBlockFields d2 hd (hinj h)
  have hbm2 : (orEmpty b2.blockHash ==
      computeBlockHash sha b2.toBlockFields) = false := by
    rw [hb2bh, hbx]
    exact beq_eq_false_iff_ne.mpr (fun h => hcne h.symm)
  have hcond : (prevHashString b2.prevHash == orEmpty p1 &&
      (orEmpty b2.blockHash == computeBlockHash sha b2.toBlockFields)) = false := by
    rw [hbm2, Bool.and_false]
  have hnp : (match b2.blockHash with
      | some s => if s = "" then
          (if computeBlockHash sha b2.toBlockFields = "" then none
            else some (computeBlockHash sha b2.toBlockFields))
          else some s
      | none => if computeBlockHash sha b2.toBlockFields = "" then none
          else some (computeBlockHash sha b2.toBlockFields)) =
      some (computeBlockHash sha x.toBlockFields) := by
    rw [hb2bh, hxbh]
    simp [hcbne]
  have hunfold : verifyLoop sha p1 (b2 :: post) =
      ((if prevHashString b2.prevHash == orEmpty p1 &&
            (orEmpty b2.blockHash == computeBlockHash sha b2.toBlockFields)
          then 0 else 1) +
        (verifyLoop sha (match b2.blockHash with
          | some s => if s = "" then
              (if computeBlockHash sha b2.toBlockFields = "" then none
                else some (computeBlockHash sha b2.toBlockFields))
              else some s
          | none => if computeBlockHash sha b2.toBlockFields = "" then none
              else some (computeBlockHash sha b2.toBlockFields)) post).1,
       (verifyLoop sha (match b2.blockHash with
          | some s => if s = "" then
              (if computeBlockHash sha b2.toBlockFields = "" then none
                else some (computeBlockHash sha b2.toBlockFields))
              else some s
          | none => if computeBlockHash sha b2.toBlockFields = "" then none
              else some (computeBlockHash sha b2.toBlockFields)) post).2.1,
       ({ seq := b2.seq
          computed := computeBlockHash sha b2.toBlockFields
          stored := jsOrNull b2.blockHash
          prevStored := jsOrNull (match b2.prevHash with
            | some p => p
            | none => none)
          prevMatches := prevHashString b2.prevHash == orEmpty p1
          blockMatches := orEmpty b2.blockHash ==
            computeBlockHash sha b2.toBlockFields } : VerifyDetail) ::
        (verifyLoop sha (match b2.blockHash with
          | some s => if s = "" then
              (if computeBlockHash sha b2.toBlockFields = "" then none
                else some (computeBlockHash sha b2.toBlockFields))
              else some s
          | none => if computeBlockHash sha b2.toBlockFields = "" then none
              else some (computeBlockHash sha b2.toBlockFields)) post).2.2) := rfl
  rw [hnp, hcond] at hunfold
  rw [if_neg (by decide)] at hunfold
  have hpm2 : (prevHashString b2.prevHash == orEmpty p1) = true := by
    rw [hb2ph]
    exact hpx
  refine ⟨?_, ?_, hA0, hpost0⟩
  · have happ1 : (verifyLoop sha none (pre ++ b2 :: post)).1 =
        (verifyLoop sha none pre).1 + (verifyLoop sha p1 (b2 :: post)).1 := by
      rw [verifyLoop_append]
    rw [happ1, hA0, hunfold, hpost0]
    rfl
  · have happ2 : (verifyLoop sha none (pre ++ b2 :: post)).2.2 =
        (verifyLoop sha none pre).2.2 ++
          (verifyLoop sha p1 (b2 :: post)).2.2 := by
      rw [verifyLoop_append]
    have hdetails : (verifyLoop sha none (pre ++ b2 :: post)).2.2 =
        (verifyLoop sha none pre).2.2 ++
          ({ seq := b2.seq,
             computed := computeBlockHash sha b2.toBlockFields,
             stored := jsOrNull b2.blockHash,
             prevStored := jsOrNull (match b2.prevHash with
               | some p => p
               | none => none),
             prevMatches := prevHashString b2.prevHash == orEmpty p1,
             blockMatches := orEmpty b2.blockHash ==
               computeBlockHash sha b2.toBlockFields } : VerifyDetail) ::
          (verifyLoop sha (some (computeBlockHash sha x.toBlockFields)) post).2.2 := by
      rw [happ2, hunfold]
    exact ⟨_, hdetails, hb2seq, hpm2, hbm2⟩

/-- C4: on a stored canonical chain that `verifyChain` reports clean
(`breaks = 0`), changing the `detail` field of exactly one stored block
and re-running `verifyChain` yields `breaks = 1`: the failing check is
attributed to that block's `seq` in the details list (`blockMatches`
false, `prevMatches` still true), and every other block — all
chronologically later ones included — still passes both checks, because
the verifier advances `prev` using the stored, not recomputed,
`blockHash`.  Hypotheses: the hash backend is injective and never returns
the empty string, and the stored chain has no legacy record, so the lazy
migration inside `verifyChain` is the identity. -/
theorem tamper_detail_single_break (sha : String → String)
    (hinj : Function.Injective sha) (hsha : ∀ s, sha s ≠ "")
    (parseISO : String → Option String) (now0 now1 : String)
    (nonces0 nonces1 : Nat → String)
    (stored : List Block) (j : Nat) (hj : j < stored.length)
    (hleg : stored.any isLegacyBlock = false)
    (d2 : String) (hd : d2 ≠ orEmpty stored[j]!.detail)
    (h0 : (verifyChainFull sha parseISO now0 nonces0 stored).breaks = 0) :
    ∀ v2, verifyChainFull sha parseISO now1 nonces1
        (stored.set j { stored[j]! with detail := some d2 }) = v2 →
      v2.breaks = 1 ∧ v2.ok = false ∧
      v2.details.length = stored.length ∧
      (v2.details[stored.length - 1 - j]!).seq = stored[j]!.seq ∧
      (v2.details[stored.length - 1 - j]!).blockMatches = false ∧
      (v2.details[stored.length - 1 - j]!).prevMatches = true ∧
      (∀ k, k < stored.length → k ≠ stored.length - 1 - j →
        (v2.details[k]!).prevMatches = true ∧
          (v2.details[k]!).blockMatches = true) := by
  intro v2 hv2
  subst hv2
  set x := stored[j]! with hxdef
  set b2 : Block := { x with detail := some d2 } with hb2def
  have hxmem : x ∈ stored := getElemBang_mem stored j hj
  have hleg2 : (stored.set j b2).any isLegacyBlock = false := by
    rw [List.any_eq_false] at hleg ⊢
    intro a ha
    rcases List.mem_or_eq_of_mem_set ha with ha | ha
    · exact hleg a ha
    · rw [ha]
      exact hleg x hxmem
  have hv0 : verifyChainFull sha parseISO now0 nonces0 stored =
      verifyChainStored sha stored := by
    rw [verifyChainFull, ensureMigrated_noop sha parseISO now0 nonces0 stored hleg]
  have hv1 : verifyChainFull sha parseISO now1 nonces1 (stored.set j b2) =
      verifyChainStored sha (stored.set j b2) := by
    rw [verifyChainFull, ensureMigrated_noop sha parseISO now1 nonces1 _ hleg2]
  rw [hv0] at h0
  rw [hv1]
  have hne : ¬ stored.isEmpty = true := by
    rw [List.isEmpty_iff]
    intro h
    rw [h] at hj
    simp at hj
  have h0' : (verifyLoop sha none stored.reverse).1 = 0 := by
    rw [verifyChainStored, if_neg hne] at h0
    exact h0
  set idx := stored.length - 1 - j with hidxdef
  set chron := stored.reverse with hchrondef
  set pre := chron.take idx with hpredef
  set post := chron.drop (idx + 1) with hpostdef
  have hchronlen : chron.length = stored.length := by
    rw [hchrondef, List.length_reverse]
  have hidxlt : idx < chron.length := by omega
  have hxival : chron[idx]! = x := by
    rw [hchrondef, reverse_getElemBang stored idx (by omega)]
    have harith : stored.length - 1 - idx = j := by omega
    rw [harith]
  have hprelen : pre.length = idx := by
    rw [hpredef, List.length_take]
    omega
  have hpostlen : post.length = stored.length - idx - 1 := by
    rw [hpostdef, List.length_drop]
    omega
  have hsplit : chron = pre ++ x :: post := by
    have h1 : chron.drop idx = chron[idx] :: chron.drop (idx + 1) :=
      List.drop_eq_getElem_cons hidxlt
    have h2 : chron[idx] = x := by
      rw [← getElem!_pos chron idx hidxlt, hxival]
    calc chron = chron.take idx ++ chron.drop idx :=
          (List.take_append_drop idx chron).symm
      _ = pre ++ x :: post := by rw [h1, h2]
  have hmut : (stored.set j b2).reverse = pre ++ b2 :: post := by
    rw [reverse_set_block stored j hj b2]
    show chron.set (stored.length - 1 - j) b2 = pre ++ b2 :: post
    rw [show stored.length - 1 - j = idx from rfl, hsplit, ← hprelen,
      set_at_append_cons]
  rw [hsplit] at h0'
  obtain ⟨hbrk, ⟨mid, hdet, hmseq, hmprev, hmblock⟩, hpre0, hpost0⟩ :=
    verify_mutated_core sha hinj hsha pre post x d2 hd h0'
  have hdlenpre : (verifyLoop sha none pre).2.2.length = idx := by
    rw [verifyLoop_details_length]
    exact hprelen
  have hdlenpost : (verifyLoop sha
      (some (computeBlockHash sha x.toBlockFields)) post).2.2.length
        = post.length :=
    verifyLoop_details_length sha post _
  have hmutne : ¬ (stored.set j b2).isEmpty = true := by
    rw [List.isEmpty_iff_length_eq_zero, List.length_set]
    omega
  rw [verifyChainStored, if_neg hmutne, hmut]
  refine ⟨hbrk, ?_, ?_, ?_, ?_, ?_, ?_⟩
  · show ((verifyLoop sha none (pre ++ b2 :: post)).1 == 0) = false
    rw [hbrk]
    rfl
  · show (verifyLoop sha none (pre ++ b2 :: post)).2.2.length = stored.length
    rw [hdet, List.length_append, List.length_cons, hdlenpre, hdlenpost,
      hpostlen]
    omega
  · show ((verifyLoop sha none (pre ++ b2 :: post)).2.2[idx]!).seq = x.seq
    rw [hdet, ← hdlenpre, getElemBang_append_cons_self]
    exact hmseq
  · show ((verifyLoop sha none (pre ++ b2 :: post)).2.2[idx]!).blockMatches = false
    rw [hdet, ← hdlenpre, getElemBang_append_cons_self]
    exact hmblock
  · show ((verifyLoop sha none (pre ++ b2 :: post)).2.2[idx]!).prevMatches = true
    rw [hdet, ← hdlenpre, getElemBang_append_cons_self]
    exact hmprev
  · intro k hk hkne
    show ((verifyLoop sha none (pre ++ b2 :: post)).2.2[k]!).prevMatches = true ∧
      ((verifyLoop sha none (pre ++ b2 :: post)).2.2[k]!).blockMatches = true
    rw [hdet]
    rcases Nat.lt_or_ge k idx with hklt | hkge
    · rw [getElemBang_append_left _ _ k (by omega)]
      exact verifyLoop_zero_all_match sha pre none hpre0 _
        (getElemBang_mem _ k (by omega))
    · have hkgt : idx < k := by omega
      have hm : k - idx - 1 < post.length := by omega
      have hidxk : k = (verifyLoop sha none pre).2.2.length + 1 + (k - idx - 1) := by
        omega
      rw [hidxk, getElemBang_append_cons_right _ _ _ _ (by omega)]
      exact verifyLoop_zero_all_match sha post _ hpost0 _
        (getElemBang_mem _ (k - idx - 1) (by omega))

/-- A concrete two-event chain used by the C4 witness. -/
def chainW : List Block :=
  appendRun hashW (fun _ => none)
    [stepW "vault_created" "t1" "n1", stepW "entry_added" "t2" "n2"] []

/-- The same chain with the chronologically first block's `detail`
tampered in storage (stored index 1 is chronological block 1). -/
def chainWmut : List Block :=
  chainW.set 1 { chainW[1]! with detail := some "tampered" }

/-- Witness for C4: tampering with the first block's `detail` on a
concrete verified two-block chain yields exactly one break, attributed to
that block, while the second block still passes. -/
theorem tamper_detail_single_break_witness :
    (verifyChainFull hashW (fun _ => none) "m1" (fun _ => "n1") chainWmut).breaks
        = 1 ∧
    (verifyChainFull hashW (fun _ => none) "m1" (fun _ => "n1") chainWmut).ok
        = false ∧
    ((verifyChainFull hashW (fun _ => none) "m1" (fun _ => "n1")
        chainWmut).details[0]!).seq = chainW[1]!.seq ∧
    ((verifyChainFull hashW (fun _ => none) "m1" (fun _ => "n1")
        chainWmut).details[0]!).blockMatches = false ∧
    ((verifyChainFull hashW (fun _ => none) "m1" (fun _ => "n1")
        chainWmut).details[0]!).prevMatches = true ∧
    ((verifyChainFull hashW (fun _ => none) "m1" (fun _ => "n1")
        chainWmut).details[1]!).blockMatches = true := by
  have h := tamper_detail_single_break hashW hashW_inj hashW_ne_empty
    (fun _ => none) "m0" "m1" (fun _ => "n0") (fun _ => "n1") chainW 1
    (by decide) (by decide) "tampered" (by decide) (by rfl)
    (verifyChainFull hashW (fun _ => none) "m1" (fun _ => "n1") chainWmut) rfl
  exact ⟨h.1, h.2.1, h.2.2.2.1, h.2.2.2.2.1, h.2.2.2.2.2.1,
    (h.2.2.2.2.2.2 1 (by decide) (by decide)).2⟩

end VaultX
